import Mathlib

/-!
Verification of the board state-space engine of the `slide-puzzle` repository.

The Rust sources are shallowly embedded:

* `usize` values are modelled as `Nat`, `isize` values as `Int`; the casts
  `as isize` / `as usize` appearing in the sources are modelled exactly
  (they are exact for every value the program can produce on the board
  sizes admitted by the data model, which caps `width * height` at 256).
* `u8` arithmetic is modelled on `Nat` with the overflow/underflow checks
  made explicit where they matter (checked-arithmetic semantics).
* Fallible Rust computations are modelled with `RsOutcome`: `ok` for a
  returned value, `err` for a typed `Err`, and `panicked` for a runtime
  panic (division by zero, `u8` underflow, out-of-bounds `swap`).
* Rust's `HashMap<String, _>` keyed by `format!("{:?}", vec)` is modelled
  by an association list keyed by the tile vector itself: the Debug
  format of a `Vec<u8>` is injective, so a map keyed by the formatted
  string is observationally identical to a map keyed by the vector.
  The placeholder parent hash `""` (never the format of any vector) is
  modelled by `Option.none`.
* The solver's `while` loops have no structural termination measure in
  the source; they are modelled by a fuel-indexed iterator together with
  the relation `FindSwapOrder`, which holds of an output exactly when
  some amount of fuel makes the iterator produce it.  Fuel monotonicity
  makes this relation deterministic, so it is the mathematical meaning
  of the source loop.
-/

/-- Typed errors named by the specification's error taxonomy (§7).  The
implementation under `src/` never actually constructs either variant. -/
inductive RsError where
  | invalidDimensions
  | valueNotFound
  deriving DecidableEq, Repr

/-- Outcome of running a fallible Rust computation: a returned value, a
typed error, or a runtime panic. -/
inductive RsOutcome (α : Type) where
  | ok (val : α)
  | err (e : RsError)
  | panicked
  deriving DecidableEq, Repr

/-- Embeds `utils.rs::get_row_col_from_idx` at `usize`:
`row = idx / width`, `col = idx % width`.  Rust `usize` division by zero
panics; callers model that case explicitly before using this function. -/
def get_row_col_from_idx (idx width : Nat) : Nat × Nat :=
  (idx / width, idx % width)

/-- Embeds `utils.rs::get_idx_from_row_col` at `isize`:
`row * width + col`. -/
def get_idx_from_row_col (row col width : Int) : Int :=
  row * width + col

/-- Embeds `utils.rs::in_bounds` instantiated at `T = isize`, `U = isize`:
`t_zero <= row && row < height && t_zero <= col && col < width`. -/
def in_bounds (row col width height : Int) : Bool :=
  decide (0 ≤ row) && decide (row < height) && decide (0 ≤ col) && decide (col < width)

/-- Embeds `board.rs::in_bounds` (the private duplicate used by
`trigger_field`), whose body is
`t_zero <= row && row < width && t_zero <= col && col < height`:
it compares `row` against `width` and `col` against `height`. -/
def board_in_bounds (row col width height : Int) : Bool :=
  decide (0 ≤ row) && decide (row < width) && decide (0 ≤ col) && decide (col < height)

/-- Embeds `utils.rs::initialize_fields`.  The length is first clamped by
`usize::min(num_elements, u8::MAX as usize)`; the subsequent `u8`
subtraction `num_elements - 1` underflows when the clamped value is `0`,
which is a panic under Rust's checked (debug) arithmetic; otherwise the
result is `0, 1, …, m-2` followed by the sentinel `u8::MAX = 255`. -/
def initialize_fields (numElements : Nat) : RsOutcome (List Nat) :=
  let m := min numElements 255
  if m = 0 then .panicked else .ok (List.range (m - 1) ++ [255])

/-- Core of `utils.rs::get_swappable_neighbours` (everything after the
`row/col` computation): probe the four orthogonal deltas in the fixed
order up `(-1,0)`, down `(1,0)`, left `(0,-1)`, right `(0,1)`, keep the
in-bounds ones, and convert each back to a linear index.  Meaningful for
`width > 0`; the division-by-zero panic of `width = 0` is modelled by the
wrappers. -/
def swappable_neighbours_core (width height emptyFieldIdx : Nat) : List Nat :=
  let row := emptyFieldIdx / width
  let col := emptyFieldIdx % width
  ([(-1, 0), (1, 0), (0, -1), (0, 1)] : List (Int × Int)).filterMap
    (fun d =>
      let neighbourRow : Int := (row : Int) + d.1
      let neighbourCol : Int := (col : Int) + d.2
      if in_bounds neighbourRow neighbourCol (width : Int) (height : Int) then
        some (get_idx_from_row_col neighbourRow neighbourCol (width : Int)).toNat
      else
        none)

/-- Embeds `utils.rs::get_swappable_neighbours`.  The body always wraps
its list in `Ok`; no error is ever constructed.  For `width = 0` the
initial `get_row_col_from_idx` divides by zero, a panic. -/
def get_swappable_neighbours (width height emptyFieldIdx : Nat) :
    RsOutcome (List Nat) :=
  if width = 0 then .panicked
  else .ok (swappable_neighbours_core width height emptyFieldIdx)

/-- Exchange of the entries at positions `i` and `j`, the effect of Rust's
`slice::swap` when both indices are in bounds.  Out-of-bounds indices
leave the list unchanged here; callers model Rust's bounds panic
explicitly before using this function. -/
def list_swap (l : List Nat) (i j : Nat) : List Nat :=
  match l.get? i, l.get? j with
  | some vi, some vj => (l.set i vj).set j vi
  | _, _ => l

/-- Modelled from the spec: `get_empty_field_idx` lives in the `board`
module, which is not under `src/` (only its callers are).  Per the data
model (§3) the sentinel `u8::MAX = 255` marks the single empty cell, so
the function returns the index of the first sentinel; a state with no
sentinel violates the uniqueness/completeness invariant and the lookup
of the missing value is a failure (`none`, a panic at the call sites in
the solver, which use the index directly). -/
def get_empty_field_idx (fields : List Nat) : Option Nat :=
  fields.findIdx? (· = 255)

/-- State key of the solver's visited map.  The source keys the map by
`format!("{:?}", vec)`, which is injective on `Vec<u8>`, so the map is
modelled as keyed by the tile vector itself. -/
abbrev StateKey := List Nat

/-- Record stored in the solver's visited map: the parent key (`none`
models the placeholder `""` seeded for the initial state, which is not
the format of any vector) and the swap that produced the state. -/
abbrev ParentRec := Option StateKey × (Nat × Nat)

/-- The solver's `HashMap` from state keys to parent records, modelled as
an association list without duplicate keys. -/
abbrev ParentMap := List (StateKey × ParentRec)

/-- Lookup in the visited map, the model of `HashMap::get`. -/
def pmap_lookup : ParentMap → StateKey → Option ParentRec
  | [], _ => none
  | (k', v) :: rest, k => if k' = k then some v else pmap_lookup rest k

/-- Membership test, the model of `HashMap::contains_key`. -/
def pmap_contains (m : ParentMap) (k : StateKey) : Bool :=
  (pmap_lookup m k).isSome

/-- Insertion, the model of `HashMap::insert`: an existing entry for the
key is overwritten, otherwise the binding is added. -/
def pmap_insert : ParentMap → StateKey → ParentRec → ParentMap
  | [], k, v => [(k, v)]
  | (k', v') :: rest, k, v =>
    if k' = k then (k, v) :: rest else (k', v') :: pmap_insert rest k v


/-- One element of the solver's FIFO frontier: the tile state, the parent
key and the last swap.  The source tuple also carries the state's own
hash, which under the injective-key modelling is the state itself. -/
abbrev FrontierEntry := StateKey × Option StateKey × (Nat × Nat)

/-- Number of frontier entries carrying a given state key. -/
def frontier_key_count (k : StateKey) (q : List FrontierEntry) : Nat :=
  (q.filter (fun en => en.1 = k)).length

/-- The working set of one `find_swap_order` invocation: the FIFO
frontier `states_to_explore` and the visited map `parent_map`. -/
structure SolverState where
  queue : List FrontierEntry
  pmap : ParentMap
  deriving DecidableEq, Repr

/-- Result of one iteration of the solver's `while let` loop: a panic, the
loop finishing with its final map (frontier exhausted or target popped),
or the loop continuing in a new working state. -/
inductive SolverStepRes where
  | panicked
  | finished (m : ParentMap)
  | going (st : SolverState)
  deriving DecidableEq, Repr

/-- One iteration of the solver's BFS loop (`solver.rs` lines 62–99): pop
the frontier head, insert its record into the map unconditionally, stop
if it is the target, otherwise expand the swappable neighbours of the
tracked empty cell, filter out states whose key is already in the map,
and push the rest onto the back of the frontier.  `width = 0` makes
`get_swappable_neighbours` divide by zero, and a swap index outside the
state vector makes `Vec::swap` panic. -/
def solver_step (target : StateKey) (width height : Nat) (st : SolverState) :
    SolverStepRes :=
  match st.queue with
  | [] => .finished st.pmap
  | (curFields, parentKey, lastSwap) :: rest =>
    let m := pmap_insert st.pmap curFields (parentKey, lastSwap)
    if curFields = target then .finished m
    else if width = 0 then .panicked
    else
      let emptyFieldIdx := lastSwap.2
      let nbs := swappable_neighbours_core width height emptyFieldIdx
      match nbs.mapM (fun nb =>
          if emptyFieldIdx < curFields.length ∧ nb < curFields.length then
            some ((list_swap curFields emptyFieldIdx nb : StateKey),
                  (some curFields : Option StateKey), (emptyFieldIdx, nb))
          else none) with
      | none => .panicked
      | some reachable =>
        let unseen := reachable.filter (fun t => ¬ pmap_contains m t.1)
        .going ⟨rest ++ unseen, m⟩

/-- Fuel-indexed iteration of the solver loop.  `none` means the fuel ran
out before the loop finished; `some none` models a panic; `some (some m)`
is normal loop exit with final visited map `m`. -/
def run_solver_loop (target : StateKey) (width height : Nat) :
    Nat → SolverState → Option (Option ParentMap)
  | 0, _ => none
  | fuel + 1, st =>
    match solver_step target width height st with
    | .panicked => some none
    | .finished m => some (some m)
    | .going st' => run_solver_loop target width height fuel st'

/-- Fuel-indexed model of the path-extraction loop (`solver.rs` lines
111–119): starting from the target key, repeatedly look up the record,
append its swap, and stop when the parent is the initial key (or when a
lookup fails, which exits the `while let`). -/
def trace_loop (m : ParentMap) (initialKey : StateKey) :
    Nat → Option StateKey → List (Nat × Nat) → Option (List (Nat × Nat))
  | 0, _, _ => none
  | fuel + 1, nextKey, swaps =>
    match nextKey.bind (pmap_lookup m) with
    | none => some swaps
    | some (parentKey, swap) =>
      let swaps := swaps ++ [swap]
      if parentKey = some initialKey then some swaps
      else trace_loop m initialKey fuel parentKey swaps

/-- Embeds `solver.rs::find_swap_order`, fuel-indexed (the fuel bounds the
iterations of the two source `while` loops; `none` means it ran out).
Target computation, the early already-solved exit, the empty-field
lookup, the BFS loop and the path extraction follow the source line by
line. -/
def find_swap_order (fuel : Nat) (fields : List Nat) (width height : Nat) :
    Option (RsOutcome (List (Nat × Nat))) :=
  match initialize_fields fields.length with
  | .panicked => some .panicked
  | .err _ => some .panicked
  | .ok target =>
    if fields = target then some (.ok [])
    else
      match get_empty_field_idx fields with
      | none => some .panicked
      | some emptyFieldIdx =>
        match run_solver_loop target width height fuel
            ⟨[(fields, none, (emptyFieldIdx, emptyFieldIdx))], []⟩ with
        | none => none
        | some none => some .panicked
        | some (some m) =>
          if pmap_contains m target then
            match trace_loop m fields fuel (some target) [] with
            | none => none
            | some swaps => some (.ok swaps.reverse)
          else some (.ok [])

/-- The result relation of `solver.rs::find_swap_order`: the source loop,
run to completion, produces `out`.  Since the fuel-indexed model is
monotone in fuel, this relation is deterministic. -/
def FindSwapOrder (fields : List Nat) (width height : Nat)
    (out : RsOutcome (List (Nat × Nat))) : Prop :=
  ∃ fuel, find_swap_order fuel fields width height = some out

/-- Iterated solver loop observer: the loop's working state after `n`
iterations (absorbing once the loop has finished or panicked).  Used to
state invariants about intermediate states of the source `while` loop. -/
def solver_iterate (target : StateKey) (width height : Nat) :
    Nat → SolverState → SolverStepRes
  | 0, st => .going st
  | n + 1, st =>
    match solver_step target width height st with
    | .going st' => solver_iterate target width height n st'
    | other => other

/-- Embeds `board.rs::trigger_field`.  The clicked value is looked up with
`get` (no panic on out-of-range `clicked_idx`); if it is the sentinel the
state is returned unchanged.  Otherwise the four orthogonal deltas are
probed in order using `board_in_bounds` (the transposed duplicate) and,
whenever the probed cell holds the sentinel, `fields.swap` is executed —
which panics when `clicked_idx` is out of bounds.  `width = 0` makes the
initial `get_row_col_from_idx` divide by zero, a panic. -/
def trigger_field (fields : List Nat) (width height clickedIdx : Nat) :
    RsOutcome (List Nat) :=
  if fields.get? clickedIdx = some 255 then .ok fields
  else if width = 0 then .panicked
  else
    let row := clickedIdx / width
    let col := clickedIdx % width
    ([(-1, 0), (1, 0), (0, -1), (0, 1)] : List (Int × Int)).foldl
      (fun acc d =>
        match acc with
        | .ok fs =>
          let neighbourRow : Int := (row : Int) + d.1
          let neighbourCol : Int := (col : Int) + d.2
          if board_in_bounds neighbourRow neighbourCol (width : Int) (height : Int) then
            let idx := (get_idx_from_row_col neighbourRow neighbourCol (width : Int)).toNat
            if fs.get? idx = some 255 then
              if clickedIdx < fs.length ∧ idx < fs.length then
                .ok (list_swap fs clickedIdx idx)
              else .panicked
            else .ok fs
          else .ok fs
        | other => other)
      (.ok fields)

/-- Orthogonal adjacency of two linear indices on a row-major grid of the
given width: same row and neighbouring columns, or same column and
neighbouring rows. -/
def orth_adjacent (width i j : Nat) : Prop :=
  (i / width = j / width ∧ (i + 1 = j ∨ j + 1 = i)) ∨ (i + width = j ∨ j + width = i)

instance (width i j : Nat) : Decidable (orth_adjacent width i j) := by
  unfold orth_adjacent; infer_instance

/-- Adjacency of two in-range linear indices on a `width × height` grid. -/
def grid_adjacent (width height i j : Nat) : Prop :=
  i < width * height ∧ j < width * height ∧ orth_adjacent width i j

instance (width height i j : Nat) : Decidable (grid_adjacent width height i j) := by
  unfold grid_adjacent; infer_instance

/-- The canonical solved state for a `width * height` board: tile `k` at
index `k` and the sentinel at the last index (§3 CanonicalSolvedState). -/
def canonical_state (width height : Nat) : List Nat :=
  List.range (width * height - 1) ++ [255]

/-- Validity of one `SwapMove` on a state (§3): the two indices are
orthogonally adjacent cells of the grid and one of them holds the
sentinel. -/
def LegalSwap (width height : Nat) (s : List Nat) (m : Nat × Nat) : Prop :=
  grid_adjacent width height m.1 m.2 ∧
    (s.get? m.1 = some 255 ∨ s.get? m.2 = some 255)

instance (width height : Nat) (s : List Nat) (m : Nat × Nat) :
    Decidable (LegalSwap width height s m) := by
  unfold LegalSwap; infer_instance

/-- Application of an ordered list of swap moves to a state, the caller's
`for swap in sequence { fields.swap(swap.0, swap.1) }`. -/
def apply_swaps (moves : List (Nat × Nat)) (s : List Nat) : List Nat :=
  moves.foldl (fun st m => list_swap st m.1 m.2) s

/-- An ordered list of moves each of which is legal in the state produced
by the previous ones, transforming `s` into `t`. -/
inductive LegalSeq (width height : Nat) : List Nat → List (Nat × Nat) → List Nat → Prop
  | nil (s : List Nat) : LegalSeq width height s [] s
  | cons (s : List Nat) (m : Nat × Nat) (rest : List (Nat × Nat)) (t : List Nat)
      (hm : LegalSwap width height s m)
      (hrest : LegalSeq width height (list_swap s m.1 m.2) rest t) :
      LegalSeq width height s (m :: rest) t

/-- One legal swap connects two states (the edge relation of the implicit
permutation graph the solver searches). -/
def StateAdj (width height : Nat) (s t : List Nat) : Prop :=
  ∃ m, LegalSwap width height s m ∧ t = list_swap s m.1 m.2

/-- A state reachable from the canonical solved state by legal swaps. -/
def ReachableState (width height : Nat) (s : List Nat) : Prop :=
  Relation.ReflTransGen (StateAdj width height) (canonical_state width height) s

/-- One iteration of the BFS loop of the duplicate solver copy in
`solver/optimal.rs` (lines 56–93), whose body is token-identical to the
loop in `solver.rs`. -/
def optimal_solver_step (target : StateKey) (width height : Nat)
    (st : SolverState) : SolverStepRes :=
  match st.queue with
  | [] => .finished st.pmap
  | (curFields, parentKey, lastSwap) :: rest =>
    let m := pmap_insert st.pmap curFields (parentKey, lastSwap)
    if curFields = target then .finished m
    else if width = 0 then .panicked
    else
      let emptyFieldIdx := lastSwap.2
      let nbs := swappable_neighbours_core width height emptyFieldIdx
      match nbs.mapM (fun nb =>
          if emptyFieldIdx < curFields.length ∧ nb < curFields.length then
            some ((list_swap curFields emptyFieldIdx nb : StateKey),
                  (some curFields : Option StateKey), (emptyFieldIdx, nb))
          else none) with
      | none => .panicked
      | some reachable =>
        let unseen := reachable.filter (fun t => ¬ pmap_contains m t.1)
        .going ⟨rest ++ unseen, m⟩

/-- Fuel-indexed iteration of the `solver/optimal.rs` BFS loop. -/
def optimal_run_solver_loop (target : StateKey) (width height : Nat) :
    Nat → SolverState → Option (Option ParentMap)
  | 0, _ => none
  | fuel + 1, st =>
    match optimal_solver_step target width height st with
    | .panicked => some none
    | .finished m => some (some m)
    | .going st' => optimal_run_solver_loop target width height fuel st'

/-- Fuel-indexed model of the path-extraction loop of
`solver/optimal.rs` (lines 105–113). -/
def optimal_trace_loop (m : ParentMap) (initialKey : StateKey) :
    Nat → Option StateKey → List (Nat × Nat) → Option (List (Nat × Nat))
  | 0, _, _ => none
  | fuel + 1, nextKey, swaps =>
    match nextKey.bind (pmap_lookup m) with
    | none => some swaps
    | some (parentKey, swap) =>
      let swaps := swaps ++ [swap]
      if parentKey = some initialKey then some swaps
      else optimal_trace_loop m initialKey fuel parentKey swaps

/-- Embeds `solver/optimal.rs::find_swap_order` (lines 25–120), the
near-duplicate copy of the solver, fuel-indexed like `find_swap_order`. -/
def optimal_find_swap_order (fuel : Nat) (fields : List Nat)
    (width height : Nat) : Option (RsOutcome (List (Nat × Nat))) :=
  match initialize_fields fields.length with
  | .panicked => some .panicked
  | .err _ => some .panicked
  | .ok target =>
    if fields = target then some (.ok [])
    else
      match get_empty_field_idx fields with
      | none => some .panicked
      | some emptyFieldIdx =>
        match optimal_run_solver_loop target width height fuel
            ⟨[(fields, none, (emptyFieldIdx, emptyFieldIdx))], []⟩ with
        | none => none
        | some none => some .panicked
        | some (some m) =>
          if pmap_contains m target then
            match optimal_trace_loop m fields fuel (some target) [] with
            | none => none
            | some swaps => some (.ok swaps.reverse)
          else some (.ok [])

/-- The result relation of `solver/optimal.rs::find_swap_order`. -/
def OptimalFindSwapOrder (fields : List Nat) (width height : Nat)
    (out : RsOutcome (List (Nat × Nat))) : Prop :=
  ∃ fuel, optimal_find_swap_order fuel fields width height = some out

/-- Well-formedness of a state key for the finite-universe argument: a
tile vector of the given length whose entries are byte values. -/
def KeysOK (n : Nat) (l : List Nat) : Prop :=
  l.length = n ∧ ∀ x ∈ l, x < 256

/-- Invariant carried through the solver loop: every frontier entry's
state vector has the board length and byte entries, its tracked empty
index is an in-range board cell, and the visited map has well-formed,
duplicate-free keys. -/
structure SolverInv (width height : Nat) (st : SolverState) : Prop where
  queue_ok : ∀ en ∈ st.queue,
    KeysOK (width * height) en.1 ∧ en.2.2.2 < width * height
  map_ok : ∀ p ∈ st.pmap, KeysOK (width * height) p.1
  keys_nodup : (st.pmap.map (·.1)).Nodup

/-- The loop's working state after `n` iterations (meaningful while the
loop is still running; an arbitrary empty state afterwards). -/
def solver_state_at (target : StateKey) (width height : Nat)
    (st0 : SolverState) (n : Nat) : SolverState :=
  match solver_iterate target width height n st0 with
  | .going st => st
  | _ => ⟨[], []⟩

/-- Paths of a given length in the implicit permutation graph: `t` is
reachable from `s` in exactly `n` legal swaps. -/
inductive ReachN (width height : Nat) : Nat → List Nat → List Nat → Prop
  | refl (s : List Nat) : ReachN width height 0 s s
  | tail (n : Nat) (s t u : List Nat) (hpath : ReachN width height n s t)
      (hadj : StateAdj width height t u) : ReachN width height (n + 1) s u

/-- Graph distance from `s` to `t`: the least number of legal swaps
connecting them (ghost quantity used only in proofs). -/
noncomputable def state_dist (width height : Nat) (s t : List Nat) : Nat :=
  sInf {n | ReachN width height n s t}

/-- The unique sentinel of `s` sits at index `e`. -/
def BlankAt (s : List Nat) (e : Nat) : Prop :=
  s.get? e = some 255 ∧ ∀ i, s.get? i = some 255 → i = e

/-- Well-formedness a reachable board state enjoys: the board length and
a unique sentinel. -/
def WFState (width height : Nat) (s : List Nat) : Prop :=
  s.length = width * height ∧ ∃ e, BlankAt s e

/-- The move `mv` is a legal expansion edge exactly as the solver
generates it: `mv.1` is the parent's blank, `mv.2` an adjacent cell, and
the child is the parent with the two cells exchanged. -/
def EdgeRec (width height : Nat) (par : List Nat) (mv : Nat × Nat)
    (chi : List Nat) : Prop :=
  grid_adjacent width height mv.1 mv.2 ∧ par.get? mv.1 = some 255 ∧
    chi = list_swap par mv.1 mv.2

/-- Reachability from the search root in some number of legal swaps. -/
def ReachS (width height : Nat) (s0 x : List Nat) : Prop :=
  ∃ n, ReachN width height n s0 x

/-- Validity of a parent record with respect to the search root `s0`
whose blank sits at `e0`: either the root's placeholder record, or a
real expansion edge from a parent one level closer to the root. -/
def RecOK (width height : Nat) (s0 : List Nat) (e0 : Nat) (k : StateKey)
    (r : ParentRec) : Prop :=
  match r.1 with
  | none => k = s0 ∧ r.2 = (e0, e0)
  | some p => EdgeRec width height p r.2 k ∧ ReachS width height s0 p ∧
      state_dist width height s0 p + 1 = state_dist width height s0 k

/-- The breadth-first invariant of the solver loop, at current level `d`:
the frontier splits into a block `A` of states at distance `d` from the
root and a block `B` at distance `d + 1`; the visited map holds valid
records of visited states at distance at most `d`; every state closer
than `d` is visited, every distance-`d` state is visited or still in
`A`, and every distance-`(d+1)` state is in `B` or adjacent to a state
still in `A`; and the target has not been visited yet. -/
structure BfsInv (width height : Nat) (s0 target : List Nat) (e0 : Nat)
    (d : Nat) (A B : List FrontierEntry) (M : ParentMap) : Prop where
  a_dist : ∀ en ∈ A, state_dist width height s0 en.1 = d
  b_dist : ∀ en ∈ B, state_dist width height s0 en.1 = d + 1
  q_wf : ∀ en ∈ A ++ B, ReachS width height s0 en.1 ∧
    BlankAt en.1 en.2.2.2 ∧ RecOK width height s0 e0 en.1 en.2
  q_parents : ∀ en ∈ A ++ B, ∀ p, en.2.1 = some p →
    pmap_contains M p = true
  m_rec : ∀ pr ∈ M, ReachS width height s0 pr.1 ∧
    RecOK width height s0 e0 pr.1 pr.2 ∧
    state_dist width height s0 pr.1 ≤ d
  m_parents : ∀ pr ∈ M, ∀ p, pr.2.1 = some p →
    pmap_contains M p = true
  cov_lt : ∀ x, ReachS width height s0 x →
    state_dist width height s0 x < d → pmap_contains M x = true
  cov_d : ∀ x, ReachS width height s0 x →
    state_dist width height s0 x = d →
    pmap_contains M x = true ∨ ∃ en ∈ A, en.1 = x
  cov_d1 : ∀ x, ReachS width height s0 x →
    state_dist width height s0 x = d + 1 →
    (∃ en ∈ B, en.1 = x) ∨ ∃ en ∈ A, StateAdj width height en.1 x
  target_not : pmap_contains M target = false

/-- What the loop delivers on exit for a solvable input: a visited map
with valid records whose parents are themselves recorded, containing
the target. -/
def GoodFinal (width height : Nat) (s0 : List Nat) (e0 : Nat)
    (target : StateKey) (M : ParentMap) : Prop :=
  (∀ pr ∈ M, ReachS width height s0 pr.1 ∧
      RecOK width height s0 e0 pr.1 pr.2 ∧
      (∀ p, pr.2.1 = some p → pmap_contains M p = true)) ∧
    pmap_contains M target = true

/-! ## Basic lemmas about the geometry helpers -/

theorem in_bounds_iff (row col width height : Int) :
    in_bounds row col width height = true ↔
      0 ≤ row ∧ row < height ∧ 0 ≤ col ∧ col < width := by
  simp [in_bounds, and_assoc]

theorem in_bounds_height_zero (row col width : Int) :
    in_bounds row col width 0 = false := by
  rw [Bool.eq_false_iff, Ne, in_bounds_iff]
  omega

/-- C5: the claim's contract — `in_bounds(row, col, width, height)` is
true iff `0 ≤ row < height` and `0 ≤ col < width`, on signed inputs —
holds of `utils.rs::in_bounds`, but the duplicate in `board.rs` violates
it: it compares `row` with `width` and `col` with `height`, so at
`row = 0, col = 2, width = 3, height = 2` the contract (and `utils.rs`)
gives `true` while `board.rs::in_bounds` returns `false`. -/
theorem C5_in_bounds_contract_board_copy_transposed :
    (∀ row col width height : Int,
        in_bounds row col width height = true ↔
          0 ≤ row ∧ row < height ∧ 0 ≤ col ∧ col < width) ∧
      in_bounds 0 2 3 2 = true ∧ board_in_bounds 0 2 3 2 = false :=
  ⟨in_bounds_iff, by decide, by decide⟩

/-- C6: on the non-square board `width = 9, height = 1`, index `1` is the
single in-range orthogonal neighbour of the clicked index `0` and holds
the sentinel, so the claim demands the swapped state — but
`trigger_field`, probing neighbours through the transposed
`board.rs::in_bounds`, returns the state unchanged. -/
theorem C6_trigger_field_misses_sentinel_neighbour :
    trigger_field [0, 255, 1, 2, 3, 4, 5, 6, 7] 9 1 0 =
        .ok [0, 255, 1, 2, 3, 4, 5, 6, 7] ∧
      (List.range (9 * 1)).filter (fun j => decide (orth_adjacent 9 0 j)) = [1] ∧
      [0, 255, 1, 2, 3, 4, 5, 6, 7].get? 1 = some 255 ∧
      list_swap [0, 255, 1, 2, 3, 4, 5, 6, 7] 0 1 = [255, 0, 1, 2, 3, 4, 5, 6, 7] ∧
      RsOutcome.ok [0, 255, 1, 2, 3, 4, 5, 6, 7] ≠
        RsOutcome.ok [255, 0, 1, 2, 3, 4, 5, 6, 7] := by
  refine ⟨by decide, by decide, by decide, by decide, by decide⟩

/-- C7 counterexample: at `width = 3, height = 0` (so `height == 0`, where
the claim demands an `InvalidDimensions` failure) `get_swappable_neighbours`
instead returns `Ok` with the empty list. -/
theorem C7_counterexample_height_zero_returns_ok :
    get_swappable_neighbours 3 0 1 = .ok [] ∧
      RsOutcome.ok ([] : List Nat) ≠ .err .invalidDimensions := by
  exact ⟨by decide, by decide⟩

/-- C7 amended: `get_swappable_neighbours` never constructs an error.
For `width = 0` it panics (the `usize` division `empty_idx / width`),
and for `height = 0` with positive width it returns `Ok` of the empty
list, every candidate being filtered out. -/
theorem C7_amended_no_error_is_returned (width height e : Nat) :
    (width = 0 → get_swappable_neighbours width height e = .panicked) ∧
      (height = 0 → 0 < width → get_swappable_neighbours width height e = .ok []) := by
  constructor
  · intro h; simp [get_swappable_neighbours, h]
  · intro hh hw
    have hcore : swappable_neighbours_core width height e = [] := by
      unfold swappable_neighbours_core
      subst hh
      simp [in_bounds_height_zero]
    rw [get_swappable_neighbours, if_neg (by omega), hcore]

/-- C7 amended, witnessed at `width = 0, height = 3, e = 1` and at
`width = 3, height = 0, e = 1`. -/
theorem C7_amended_no_error_is_returned_witness :
    (get_swappable_neighbours 0 3 1 = .panicked) ∧
      (get_swappable_neighbours 3 0 1 = .ok []) :=
  ⟨(C7_amended_no_error_is_returned 0 3 1).1 rfl,
    (C7_amended_no_error_is_returned 3 0 1).2 rfl (by decide)⟩

/-- C8 counterexample: for a requested size of `300 = 20 * 15` cells
(which exceeds the claimed 256-value capacity), `initialize_fields`
succeeds with a clamped board of only `255` tiles instead of surfacing
an `InvalidDimensions` error. -/
theorem C8_counterexample_oversized_board_clamped :
    initialize_fields 300 = .ok (List.range 254 ++ [255]) ∧
      (List.range 254 ++ [255]).length = 255 ∧ (20 * 15 : Nat) = 300 ∧
      (255 : Nat) < 300 := by
  refine ⟨rfl, by simp, by norm_num, by norm_num⟩

/-- C8 amended: `initialize_fields` never surfaces an error; it silently
clamps the requested element count to `u8::MAX = 255`, succeeding with
`min n 255` entries — strictly fewer than requested whenever the request
exceeds 255. -/
theorem C8_amended_initialize_fields_clamps (n : Nat) (hn : 1 ≤ n) :
    ∃ l, initialize_fields n = .ok l ∧ l.length = min n 255 ∧
      (256 ≤ n → l.length < n) := by
  refine ⟨List.range (min n 255 - 1) ++ [255], ?_, ?_, ?_⟩
  · unfold initialize_fields
    rw [if_neg (by omega)]
  · simp; omega
  · intro h256; simp; omega

/-- C8 amended, witnessed at `n = 300`. -/
theorem C8_amended_initialize_fields_clamps_witness :
    ∃ l, initialize_fields 300 = .ok l ∧ l.length = min 300 255 ∧
      (256 ≤ 300 → l.length < 300) :=
  C8_amended_initialize_fields_clamps 300 (by norm_num)

/-- C10: `initialize_fields 0` hits the checked `u8` underflow
`num_elements - 1` and panics rather than returning a value or a typed
error, and consequently `find_swap_order` on a zero-length state panics
for every width and height while computing its target state. -/
theorem C10_zero_size_is_not_handled :
    initialize_fields 0 = .panicked ∧
      ∀ width height : Nat, FindSwapOrder [] width height .panicked :=
  ⟨rfl, fun _ _ => ⟨0, rfl⟩⟩

theorem snc_up (w h r c : Nat) (hr : r < h) (hc : c < w) :
    (if in_bounds ((r : Int) + -1) ((c : Int) + 0) (w : Int) (h : Int) = true then
        some (get_idx_from_row_col ((r : Int) + -1) ((c : Int) + 0) (w : Int)).toNat
      else none) =
      if 0 < r then some (w * r + c - w) else none := by
  simp only [in_bounds_iff, get_idx_from_row_col]
  by_cases hcase : 0 < r
  · rw [if_pos (by omega), if_pos hcase]
    have h1 : ((r : Int) + -1) * (w : Int) + ((c : Int) + 0) =
        ((w * r + c : Nat) : Int) - (w : Int) := by push_cast; ring
    rw [h1]
    exact congrArg some (by omega)
  · rw [if_neg (by omega), if_neg hcase]

theorem snc_down (w h r c : Nat) (hr : r < h) (hc : c < w) :
    (if in_bounds ((r : Int) + 1) ((c : Int) + 0) (w : Int) (h : Int) = true then
        some (get_idx_from_row_col ((r : Int) + 1) ((c : Int) + 0) (w : Int)).toNat
      else none) =
      if r + 1 < h then some (w * r + c + w) else none := by
  simp only [in_bounds_iff, get_idx_from_row_col]
  by_cases hcase : r + 1 < h
  · rw [if_pos (by omega), if_pos hcase]
    have h1 : ((r : Int) + 1) * (w : Int) + ((c : Int) + 0) =
        ((w * r + c + w : Nat) : Int) := by push_cast; ring
    rw [h1]
    exact congrArg some (by omega)
  · rw [if_neg (by omega), if_neg hcase]

theorem snc_left (w h r c : Nat) (hr : r < h) (hc : c < w) :
    (if in_bounds ((r : Int) + 0) ((c : Int) + -1) (w : Int) (h : Int) = true then
        some (get_idx_from_row_col ((r : Int) + 0) ((c : Int) + -1) (w : Int)).toNat
      else none) =
      if 0 < c then some (w * r + c - 1) else none := by
  simp only [in_bounds_iff, get_idx_from_row_col]
  by_cases hcase : 0 < c
  · rw [if_pos (by omega), if_pos hcase]
    have h1 : ((r : Int) + 0) * (w : Int) + ((c : Int) + -1) =
        ((w * r + c : Nat) : Int) - 1 := by push_cast; ring
    rw [h1]
    exact congrArg some (by omega)
  · rw [if_neg (by omega), if_neg hcase]

theorem snc_right (w h r c : Nat) (hr : r < h) (hc : c < w) :
    (if in_bounds ((r : Int) + 0) ((c : Int) + 1) (w : Int) (h : Int) = true then
        some (get_idx_from_row_col ((r : Int) + 0) ((c : Int) + 1) (w : Int)).toNat
      else none) =
      if c + 1 < w then some (w * r + c + 1) else none := by
  simp only [in_bounds_iff, get_idx_from_row_col]
  by_cases hcase : c + 1 < w
  · rw [if_pos (by omega), if_pos hcase]
    have h1 : ((r : Int) + 0) * (w : Int) + ((c : Int) + 1) =
        ((w * r + c + 1 : Nat) : Int) := by push_cast; ring
    rw [h1]
    exact congrArg some (by omega)
  · rw [if_neg (by omega), if_neg hcase]

theorem div_lt_of_lt_mul (w h e : Nat) (_hw : 0 < w) (he : e < w * h) : e / w < h := by
  rcases Nat.lt_or_ge (e / w) h with h1 | h1
  · exact h1
  · exfalso
    have h2 : w * h ≤ w * (e / w) := Nat.mul_le_mul_left w h1
    have h3 := Nat.div_add_mod e w
    omega

/-- The list computed by `get_swappable_neighbours` in explicit form: the
in-bounds candidates in the fixed order up, down, left, right. -/
theorem swappable_core_eq (w h e : Nat) (hw : 0 < w) (he : e < w * h) :
    swappable_neighbours_core w h e =
      (if 0 < e / w then [e - w] else []) ++
      (if e / w + 1 < h then [e + w] else []) ++
      (if 0 < e % w then [e - 1] else []) ++
      (if e % w + 1 < w then [e + 1] else []) := by
  have hc : e % w < w := Nat.mod_lt _ hw
  have hr : e / w < h := div_lt_of_lt_mul w h e hw he
  have hdm : w * (e / w) + e % w = e := Nat.div_add_mod e w
  unfold swappable_neighbours_core
  simp only [List.filterMap_cons, List.filterMap_nil]
  rw [snc_up w h (e / w) (e % w) hr hc, snc_down w h (e / w) (e % w) hr hc,
    snc_left w h (e / w) (e % w) hr hc, snc_right w h (e / w) (e % w) hr hc, hdm]
  by_cases h1 : 0 < e / w <;> by_cases h2 : e / w + 1 < h <;>
    by_cases h3 : 0 < e % w <;> by_cases h4 : e % w + 1 < w <;>
    simp [h1, h2, h3, h4]

theorem div_mul_add (w a b : Nat) (hw : 0 < w) (hb : b < w) : (w * a + b) / w = a := by
  rw [Nat.mul_add_div hw, Nat.div_eq_of_lt hb]
  omega

/-- Orthogonal adjacency of `j` to `e` on a grid of width `w ≥ 2`,
characterised without division: `j` is the cell above, below, left of or
right of `e`. -/
theorem orth_adjacent_char (w e j : Nat) (hw0 : 0 < w) :
    orth_adjacent w e j ↔
      (w ≤ e ∧ j + w = e) ∨ j = e + w ∨ (0 < e % w ∧ j + 1 = e) ∨
        (e % w + 1 < w ∧ j = e + 1) := by
  have hc : e % w < w := Nat.mod_lt _ hw0
  have hdm : w * (e / w) + e % w = e := Nat.div_add_mod e w
  constructor
  · rintro (⟨hrow, hj | hj⟩ | hj | hj)
    · right; right; right
      refine ⟨?_, hj.symm⟩
      by_contra hcon
      have hcw : e % w + 1 = w := by omega
      have hmul : w * (e / w + 1) = w * (e / w) + w := by ring
      have hj2 : j = w * (e / w + 1) := by omega
      have hdiv : j / w = e / w + 1 := by rw [hj2, Nat.mul_div_cancel_left _ hw0]
      omega
    · right; right; left
      refine ⟨?_, hj⟩
      by_contra hcon
      have hc0 : e % w = 0 := by omega
      have he1 : 1 ≤ e := by omega
      have hr1 : 1 ≤ e / w := by
        by_contra hr0
        have h0 : e / w = 0 := Nat.eq_zero_of_not_pos hr0
        have hz : w * (e / w) = 0 := by rw [h0, Nat.mul_zero]
        omega
      have hmul : w * (e / w) = w * (e / w - 1) + w := by
        have h3 : e / w = (e / w - 1) + 1 := by omega
        calc w * (e / w) = w * ((e / w - 1) + 1) := by rw [← h3]
          _ = w * (e / w - 1) + w := by ring
      have hj2 : j = w * (e / w - 1) + (w - 1) := by omega
      have hdiv : j / w = e / w - 1 := by rw [hj2, div_mul_add _ _ _ hw0 (by omega)]
      omega
    · exact Or.inr (Or.inl hj.symm)
    · exact Or.inl ⟨by omega, hj⟩
  · rintro (⟨hwe, hj⟩ | hj | ⟨hc0, hj⟩ | ⟨hcw, hj⟩)
    · exact Or.inr (Or.inr hj)
    · exact Or.inr (Or.inl hj.symm)
    · left
      refine ⟨?_, Or.inr hj⟩
      have hje : j = w * (e / w) + (e % w - 1) := by omega
      rw [hje, div_mul_add _ _ _ hw0 (by omega)]
    · left
      refine ⟨?_, Or.inl hj.symm⟩
      have hje : j = w * (e / w) + (e % w + 1) := by omega
      rw [hje, div_mul_add _ _ _ hw0 (by omega)]

/-- Membership in the swappable-neighbour list is exactly in-range
orthogonal adjacency to the empty cell. -/
theorem swappable_core_mem (w h e j : Nat) (hw0 : 0 < w) (hh0 : 0 < h)
    (he : e < w * h) :
    j ∈ swappable_neighbours_core w h e ↔ j < w * h ∧ orth_adjacent w e j := by
  have hc : e % w < w := Nat.mod_lt _ hw0
  have hr : e / w < h := div_lt_of_lt_mul w h e hw0 he
  have hdm : w * (e / w) + e % w = e := Nat.div_add_mod e w
  have hmodle : e % w ≤ e := Nat.mod_le e w
  have ha : 0 < e / w ↔ w ≤ e := by
    constructor
    · intro hp
      by_contra hlt
      rw [Nat.div_eq_of_lt (by omega)] at hp
      omega
    · intro hle
      exact Nat.div_pos hle hw0
  have hb : e / w + 1 < h ↔ e + w < w * h := by
    constructor
    · intro hlt
      have m1 : w * (e / w + 2) ≤ w * h := Nat.mul_le_mul_left w (by omega)
      have m2 : w * (e / w + 2) = w * (e / w) + 2 * w := by ring
      omega
    · intro hlt
      by_contra hcon
      have m1 : w * h ≤ w * (e / w + 1) := Nat.mul_le_mul_left w (by omega)
      have m2 : w * (e / w + 1) = w * (e / w) + w := by ring
      omega
  have hcr : e % w + 1 < w → e + 1 < w * h := by
    intro hx
    have m1 : w * (e / w + 1) ≤ w * h := Nat.mul_le_mul_left w (by omega)
    have m2 : w * (e / w + 1) = w * (e / w) + w := by ring
    omega
  rw [swappable_core_eq w h e hw0 he, orth_adjacent_char w e j hw0]
  have hmem : ∀ (p : Prop) [Decidable p] (x : Nat),
      (j ∈ if p then [x] else []) ↔ p ∧ j = x := by
    intro p _ x
    split_ifs with hp
    · simp [hp]
    · simp [hp]
  simp only [List.mem_append, hmem]
  omega

/-- Length of the swappable-neighbour list: one entry per satisfied
direction. -/
theorem swappable_core_length (w h e : Nat) (hw0 : 0 < w) (he : e < w * h) :
    (swappable_neighbours_core w h e).length =
      (if 0 < e / w then 1 else 0) + (if e / w + 1 < h then 1 else 0) +
      (if 0 < e % w then 1 else 0) + (if e % w + 1 < w then 1 else 0) := by
  rw [swappable_core_eq w h e hw0 he]
  by_cases h1 : 0 < e / w <;> by_cases h2 : e / w + 1 < h <;>
    by_cases h3 : 0 < e % w <;> by_cases h4 : e % w + 1 < w <;>
    simp [h1, h2, h3, h4]

/-- C4: for `width, height ≥ 2` and in-range `empty_idx`,
`get_swappable_neighbours` returns `Ok` of the list consisting of
exactly the in-bounds orthogonal neighbour indices of `empty_idx`, in
the fixed order up (`e - width`), down (`e + width`), left (`e - 1`),
right (`e + 1`); consequently its length is 2 at a corner cell, 3 at a
non-corner edge cell and 4 at an interior cell. -/
theorem C4_get_swappable_neighbours_characterised
    (width height e : Nat) (hw : 2 ≤ width) (hh : 2 ≤ height)
    (he : e < width * height) :
    ∃ L, get_swappable_neighbours width height e = .ok L ∧
      L = (if 0 < e / width then [e - width] else []) ++
          (if e / width + 1 < height then [e + width] else []) ++
          (if 0 < e % width then [e - 1] else []) ++
          (if e % width + 1 < width then [e + 1] else []) ∧
      (∀ j, j ∈ L ↔ j < width * height ∧ orth_adjacent width e j) ∧
      (((e / width = 0 ∨ e / width = height - 1) ∧
          (e % width = 0 ∨ e % width = width - 1)) → L.length = 2) ∧
      ((((e / width = 0 ∨ e / width = height - 1) ∧
            ¬(e % width = 0 ∨ e % width = width - 1)) ∨
          (¬(e / width = 0 ∨ e / width = height - 1) ∧
            (e % width = 0 ∨ e % width = width - 1))) → L.length = 3) ∧
      ((¬(e / width = 0 ∨ e / width = height - 1) ∧
          ¬(e % width = 0 ∨ e % width = width - 1)) → L.length = 4) := by
  have hw0 : 0 < width := by omega
  have hc : e % width < width := Nat.mod_lt _ hw0
  have hr : e / width < height := div_lt_of_lt_mul width height e hw0 he
  have hlen := swappable_core_length width height e hw0 he
  refine ⟨swappable_neighbours_core width height e, ?_, ?_, ?_, ?_, ?_, ?_⟩
  · rw [get_swappable_neighbours, if_neg (by omega)]
  · exact swappable_core_eq width height e hw0 he
  · exact fun j => swappable_core_mem width height e j hw0 (by omega) he
  · intro hcase
    rw [hlen]
    obtain ⟨R, hR⟩ : ∃ R, e / width = R := ⟨_, rfl⟩
    obtain ⟨C, hC⟩ : ∃ C, e % width = C := ⟨_, rfl⟩
    rw [hR, hC] at hcase ⊢
    rw [hR] at hr
    rw [hC] at hc
    by_cases h1 : 0 < R <;> by_cases h2 : R + 1 < height <;>
      by_cases h3 : 0 < C <;> by_cases h4 : C + 1 < width <;>
      simp only [h1, h2, h3, h4, if_true, if_false] <;> omega
  · intro hcase
    rw [hlen]
    obtain ⟨R, hR⟩ : ∃ R, e / width = R := ⟨_, rfl⟩
    obtain ⟨C, hC⟩ : ∃ C, e % width = C := ⟨_, rfl⟩
    rw [hR, hC] at hcase ⊢
    rw [hR] at hr
    rw [hC] at hc
    by_cases h1 : 0 < R <;> by_cases h2 : R + 1 < height <;>
      by_cases h3 : 0 < C <;> by_cases h4 : C + 1 < width <;>
      simp only [h1, h2, h3, h4, if_true, if_false] <;> omega
  · intro hcase
    rw [hlen]
    obtain ⟨R, hR⟩ : ∃ R, e / width = R := ⟨_, rfl⟩
    obtain ⟨C, hC⟩ : ∃ C, e % width = C := ⟨_, rfl⟩
    rw [hR, hC] at hcase ⊢
    rw [hR] at hr
    rw [hC] at hc
    by_cases h1 : 0 < R <;> by_cases h2 : R + 1 < height <;>
      by_cases h3 : 0 < C <;> by_cases h4 : C + 1 < width <;>
      simp only [h1, h2, h3, h4, if_true, if_false] <;> omega

/-- C4, witnessed at the corner `e = 0` of a `2 × 2` board, where the
returned list is `[2, 1]` (down, then right). -/
theorem C4_get_swappable_neighbours_characterised_witness :
    (2 ≤ 2 ∧ 2 ≤ 2 ∧ 0 < 2 * 2) ∧
      ∃ L, get_swappable_neighbours 2 2 0 = .ok L ∧
        L = (if 0 < 0 / 2 then [0 - 2] else []) ++
            (if 0 / 2 + 1 < 2 then [0 + 2] else []) ++
            (if 0 < 0 % 2 then [0 - 1] else []) ++
            (if 0 % 2 + 1 < 2 then [0 + 1] else []) ∧
        (∀ j, j ∈ L ↔ j < 2 * 2 ∧ orth_adjacent 2 0 j) ∧
        (((0 / 2 = 0 ∨ 0 / 2 = 2 - 1) ∧ (0 % 2 = 0 ∨ 0 % 2 = 2 - 1)) →
          L.length = 2) ∧
        ((((0 / 2 = 0 ∨ 0 / 2 = 2 - 1) ∧ ¬(0 % 2 = 0 ∨ 0 % 2 = 2 - 1)) ∨
            (¬(0 / 2 = 0 ∨ 0 / 2 = 2 - 1) ∧ (0 % 2 = 0 ∨ 0 % 2 = 2 - 1))) →
          L.length = 3) ∧
        ((¬(0 / 2 = 0 ∨ 0 / 2 = 2 - 1) ∧ ¬(0 % 2 = 0 ∨ 0 % 2 = 2 - 1)) →
          L.length = 4) :=
  ⟨by omega, C4_get_swappable_neighbours_characterised 2 2 0 (by omega) (by omega)
    (by omega)⟩

theorem optimal_solver_step_eq (target : StateKey) (width height : Nat)
    (st : SolverState) :
    optimal_solver_step target width height st =
      solver_step target width height st := rfl

theorem optimal_run_solver_loop_eq (target : StateKey) (width height : Nat) :
    ∀ fuel st, optimal_run_solver_loop target width height fuel st =
      run_solver_loop target width height fuel st := by
  intro fuel
  induction fuel with
  | zero => intro st; rfl
  | succ n ih =>
    intro st
    rw [optimal_run_solver_loop, run_solver_loop, optimal_solver_step_eq]
    cases solver_step target width height st with
    | panicked => rfl
    | finished m => rfl
    | going st' => exact ih st'

theorem optimal_trace_loop_eq (m : ParentMap) (initialKey : StateKey) :
    ∀ fuel nextKey swaps,
      optimal_trace_loop m initialKey fuel nextKey swaps =
        trace_loop m initialKey fuel nextKey swaps := by
  intro fuel
  induction fuel with
  | zero => intro nk sw; rfl
  | succ n ih =>
    intro nk sw
    rw [optimal_trace_loop, trace_loop]
    cases hx : nk.bind (pmap_lookup m) with
    | none => rfl
    | some pr =>
      obtain ⟨pk, swp⟩ := pr
      by_cases hp : pk = some initialKey
      · simp [hp]
      · simp [hp, ih]

/-- C9: the two near-duplicate solver copies are extensionally equal —
for every fuel, state, width and height the fuel-indexed models agree,
and hence the two result relations coincide on every input and output. -/
theorem C9_solver_copies_extensionally_equal :
    (∀ fuel fields width height,
        optimal_find_swap_order fuel fields width height =
          find_swap_order fuel fields width height) ∧
      ∀ fields width height out,
        OptimalFindSwapOrder fields width height out ↔
          FindSwapOrder fields width height out := by
  have hmain : ∀ fuel fields width height,
      optimal_find_swap_order fuel fields width height =
        find_swap_order fuel fields width height := by
    intro fuel fields width height
    rw [optimal_find_swap_order, find_swap_order]
    cases initialize_fields fields.length with
    | panicked => rfl
    | err e => rfl
    | ok target =>
      by_cases hsolved : fields = target
      · simp [hsolved]
      · simp only [hsolved, if_false]
        cases get_empty_field_idx fields with
        | none => rfl
        | some e =>
          dsimp only
          rw [optimal_run_solver_loop_eq]
          cases run_solver_loop target width height fuel
              ⟨[(fields, none, (e, e))], []⟩ with
          | none => rfl
          | some om =>
            cases om with
            | none => rfl
            | some m =>
              dsimp only
              by_cases hct : pmap_contains m target = true
              · rw [if_pos hct, if_pos hct, optimal_trace_loop_eq]
              · rw [if_neg hct, if_neg hct]
  exact ⟨hmain, fun fields width height out =>
    ⟨fun ⟨fuel, hf⟩ => ⟨fuel, by rw [← hmain fuel fields width height]; exact hf⟩,
      fun ⟨fuel, hf⟩ => ⟨fuel, by rw [hmain fuel fields width height]; exact hf⟩⟩⟩

/-! ## Visited-map lemmas -/

theorem pmap_lookup_insert (m : ParentMap) (k k' : StateKey) (v : ParentRec) :
    pmap_lookup (pmap_insert m k v) k' =
      if k = k' then some v else pmap_lookup m k' := by
  induction m with
  | nil => rfl
  | cons hd rest ih =>
    obtain ⟨k0, v0⟩ := hd
    by_cases h0 : k0 = k
    · rw [pmap_insert, if_pos h0]
      by_cases h1 : k = k'
      · rw [pmap_lookup, if_pos h1, if_pos h1]
      · rw [pmap_lookup, if_neg h1, if_neg h1, pmap_lookup, if_neg (by rw [h0]; exact h1)]
    · rw [pmap_insert, if_neg h0]
      by_cases h1 : k0 = k'
      · rw [pmap_lookup, if_pos h1, pmap_lookup, if_pos h1,
          if_neg (fun hkk : k = k' => h0 (h1.trans hkk.symm))]
      · rw [pmap_lookup, if_neg h1, ih, pmap_lookup, if_neg h1]

/-- C2 counterexample: on the unsolvable `2 × 2` state `[1,0,2,255]` the
BFS frontier is exhausted (the loop finishes with the solved key
`[0,1,2,255]` absent from the visited map), yet `find_swap_order`
returns `Ok` of the empty move list — exactly the value it returns for
the already-solved state — rather than any distinct outcome. -/
theorem C2_counterexample_unsolvable_returns_empty_list :
    (run_solver_loop [0, 1, 2, 255] 2 2 14
        ⟨[([1, 0, 2, 255], none, (3, 3))], []⟩).map
        (Option.map (fun m => pmap_contains m [0, 1, 2, 255])) =
      some (some false) ∧
      find_swap_order 14 [1, 0, 2, 255] 2 2 = some (.ok []) ∧
      find_swap_order 0 [0, 1, 2, 255] 2 2 = some (.ok []) := by
  refine ⟨by decide, by decide, by decide⟩

/-- C2 amended: when the BFS loop ends with the solved key absent from
the visited map, `find_swap_order` returns `Ok([])` — the very value it
returns for every already-solved input — so frontier exhaustion is not
reported as a distinct outcome. -/
theorem C2_amended_exhaustion_conflated_with_solved
    (fields target : List Nat) (width height fuel : Nat) (e : Nat)
    (m : ParentMap)
    (htarget : initialize_fields fields.length = .ok target)
    (hne : fields ≠ target)
    (hempty : get_empty_field_idx fields = some e)
    (hrun : run_solver_loop target width height fuel
        ⟨[(fields, none, (e, e))], []⟩ = some (some m))
    (hnotfound : pmap_contains m target = false) :
    find_swap_order fuel fields width height = some (.ok []) ∧
      ∀ (solved : List Nat) (w' h' fuel' : Nat),
        initialize_fields solved.length = .ok solved →
        find_swap_order fuel' solved w' h' = some (.ok []) := by
  constructor
  · rw [find_swap_order, htarget]
    dsimp only
    rw [if_neg hne, hempty]
    dsimp only
    rw [hrun]
    dsimp only
    rw [if_neg (by rw [hnotfound]; exact Bool.false_ne_true)]
  · intro solved w' h' fuel' hs
    rw [find_swap_order, hs]
    dsimp only
    rw [if_pos rfl]

/-- C2 amended, witnessed on the unsolvable `2 × 2` instance. -/
theorem C2_amended_exhaustion_conflated_with_solved_witness :
    find_swap_order 14 [1, 0, 2, 255] 2 2 = some (.ok []) ∧
      ∀ (solved : List Nat) (w' h' fuel' : Nat),
        initialize_fields solved.length = .ok solved →
        find_swap_order fuel' solved w' h' = some (.ok []) :=
  C2_amended_exhaustion_conflated_with_solved [1, 0, 2, 255] [0, 1, 2, 255]
    2 2 14 3
    [([1, 0, 2, 255], none, (3, 3)), ([1, 255, 2, 0], some [1, 0, 2, 255], (3, 1)),
      ([1, 0, 255, 2], some [1, 0, 2, 255], (3, 2)), ([255, 1, 2, 0], some [1, 255, 2, 0], (1, 0)),
      ([255, 0, 1, 2], some [1, 0, 255, 2], (2, 0)), ([2, 1, 255, 0], some [255, 1, 2, 0], (0, 2)),
      ([0, 255, 1, 2], some [255, 0, 1, 2], (0, 1)), ([2, 1, 0, 255], some [2, 1, 255, 0], (2, 3)),
      ([0, 2, 1, 255], some [0, 255, 1, 2], (1, 3)), ([2, 255, 0, 1], some [2, 1, 0, 255], (3, 1)),
      ([0, 2, 255, 1], some [0, 2, 1, 255], (3, 2)), ([255, 2, 0, 1], some [0, 2, 255, 1], (2, 0))]
    (by decide) (by decide) (by decide) (by rfl) (by rfl)

/-- C3 counterexample: in the BFS run on the `2 × 2` state `[1,0,2,255]`,
the state-key `[255,2,0,1]` already has the record
`(parent [2,255,0,1], move (1,0))` after 12 loop iterations, and the
13th iteration — popping a duplicate frontier entry for the same key —
overwrites it with the different record
`(parent [0,2,255,1], move (2,0))`: insertion is not conditional on
absence, and the first insertion does not win. -/
theorem C3_counterexample_record_is_overwritten :
    (match solver_iterate [0, 1, 2, 255] 2 2 12
        ⟨[([1, 0, 2, 255], none, (3, 3))], []⟩ with
      | .going st => pmap_lookup st.pmap [255, 2, 0, 1]
      | _ => none) = some (some [2, 255, 0, 1], (1, 0)) ∧
      (match solver_iterate [0, 1, 2, 255] 2 2 13
          ⟨[([1, 0, 2, 255], none, (3, 3))], []⟩ with
        | .going st => pmap_lookup st.pmap [255, 2, 0, 1]
        | _ => none) = some (some [0, 2, 255, 1], (2, 0)) ∧
      ((some [2, 255, 0, 1] : Option StateKey), ((1 : Nat), (0 : Nat))) ≠
        (some [0, 2, 255, 1], (2, 0)) := by
  refine ⟨by decide, by decide, by decide⟩

/-- C3 amended: the `(parent, move)` record is written unconditionally at
every pop, so deduplication lives on the enqueue side instead.  A key's
record can change in one loop iteration only when the popped frontier
entry carries that very key (and the new record is that entry's parent
and move); and once a key is in the visited map, the number of frontier
entries carrying it never increases — children are enqueued only if
their key is absent from the map — so every overwrite stems from a
duplicate enqueued before the key was first visited. -/
theorem C3_amended_overwrite_only_by_duplicate_frontier_entry
    (target : StateKey) (width height : Nat) (st st' : SolverState)
    (k : StateKey) :
    (solver_step target width height st = .going st' →
      ∀ r r', pmap_lookup st.pmap k = some r →
        pmap_lookup st'.pmap k = some r' → r' ≠ r →
        ∃ p lsw rest, st.queue = (k, p, lsw) :: rest ∧ r' = (p, lsw)) ∧
      (pmap_contains st.pmap k = true →
        solver_step target width height st = .going st' →
        frontier_key_count k st'.queue ≤ frontier_key_count k st.queue) := by
  constructor
  · intro hstep r r' hr hr' hne
    rcases hq : st.queue with _ | ⟨⟨f, p, lsw⟩, rest⟩
    · rw [solver_step, hq] at hstep
      exact absurd hstep (by simp)
    · rw [solver_step, hq] at hstep
      dsimp only at hstep
      by_cases hft : f = target
      · rw [if_pos hft] at hstep
        exact absurd hstep (by simp)
      · rw [if_neg hft] at hstep
        by_cases hw0 : width = 0
        · rw [if_pos hw0] at hstep
          exact absurd hstep (by simp)
        · rw [if_neg hw0] at hstep
          rcases hmm : (swappable_neighbours_core width height lsw.2).mapM
              (fun nb =>
                if lsw.2 < f.length ∧ nb < f.length then
                  some ((list_swap f lsw.2 nb : StateKey),
                    (some f : Option StateKey), (lsw.2, nb))
                else none) with _ | reachable
          · rw [hmm] at hstep
            exact absurd hstep (by simp)
          · rw [hmm] at hstep
            dsimp only at hstep
            have hpm : st'.pmap = pmap_insert st.pmap f (p, lsw) := by
              cases hstep.symm
              rfl
            rw [hpm, pmap_lookup_insert] at hr'
            by_cases hfk : f = k
            · subst hfk
              refine ⟨p, lsw, rest, rfl, ?_⟩
              rw [if_pos rfl] at hr'
              exact ((Option.some.injEq _ _).mp hr').symm
            · rw [if_neg hfk] at hr'
              rw [hr] at hr'
              exact absurd ((Option.some.injEq _ _).mp hr').symm hne
  · intro hmem hstep
    rcases hq : st.queue with _ | ⟨⟨f, p, lsw⟩, rest⟩
    · rw [solver_step, hq] at hstep
      exact absurd hstep (by simp)
    · rw [solver_step, hq] at hstep
      dsimp only at hstep
      by_cases hft : f = target
      · rw [if_pos hft] at hstep
        exact absurd hstep (by simp)
      · rw [if_neg hft] at hstep
        by_cases hw0 : width = 0
        · rw [if_pos hw0] at hstep
          exact absurd hstep (by simp)
        · rw [if_neg hw0] at hstep
          rcases hmm : (swappable_neighbours_core width height lsw.2).mapM
              (fun nb =>
                if lsw.2 < f.length ∧ nb < f.length then
                  some ((list_swap f lsw.2 nb : StateKey),
                    (some f : Option StateKey), (lsw.2, nb))
                else none) with _ | reachable
          · rw [hmm] at hstep
            exact absurd hstep (by simp)
          · rw [hmm] at hstep
            dsimp only at hstep
            have hqueue : st'.queue = rest ++ (reachable.filter
                (fun t => ¬ pmap_contains (pmap_insert st.pmap f (p, lsw)) t.1)) := by
              cases hstep.symm
              rfl
            rw [hqueue]
            rw [frontier_key_count, frontier_key_count, List.filter_append,
              List.length_append]
            have hnok : (reachable.filter
                (fun t => ¬ pmap_contains (pmap_insert st.pmap f (p, lsw)) t.1)).filter
                  (fun en => en.1 = k) = [] := by
              rw [List.filter_filter]
              apply List.filter_eq_nil_iff.mpr
              intro en _
              by_cases hek : en.1 = k
              · have hcontains : pmap_contains (pmap_insert st.pmap f (p, lsw)) k = true := by
                  rw [pmap_contains, pmap_lookup_insert]
                  by_cases hfk : f = k
                  · rw [if_pos hfk]; rfl
                  · rw [if_neg hfk]
                    rw [pmap_contains] at hmem
                    exact hmem
                simp [hcontains, hek]
              · simp [hek]
            rw [hnok]
            simp [frontier_key_count, List.filter_cons]
            split <;> simp

/-- C3 amended, witnessed at the 13th iteration of the BFS run on
`[1,0,2,255]`: the overwrite of the record of `[255,2,0,1]` comes from
popping the duplicate frontier entry carrying that key, and with the key
in the map the frontier count for it does not increase. -/
theorem C3_amended_overwrite_only_by_duplicate_frontier_entry_witness :
    (∃ p lsw rest,
        ([([255, 2, 0, 1], some [0, 2, 255, 1], (2, 0))] :
            List FrontierEntry) = ([255, 2, 0, 1], p, lsw) :: rest ∧
          ((some [0, 2, 255, 1] : Option StateKey), ((2 : Nat), (0 : Nat))) =
            (p, lsw)) ∧
      frontier_key_count [255, 2, 0, 1] [] ≤
        frontier_key_count [255, 2, 0, 1]
          [([255, 2, 0, 1], some [0, 2, 255, 1], (2, 0))] := by
  have h := C3_amended_overwrite_only_by_duplicate_frontier_entry
    [0, 1, 2, 255] 2 2
    ⟨[([255, 2, 0, 1], some [0, 2, 255, 1], (2, 0))],
      [([1, 0, 2, 255], none, (3, 3)),
       ([1, 255, 2, 0], some [1, 0, 2, 255], (3, 1)),
       ([1, 0, 255, 2], some [1, 0, 2, 255], (3, 2)),
       ([255, 1, 2, 0], some [1, 255, 2, 0], (1, 0)),
       ([255, 0, 1, 2], some [1, 0, 255, 2], (2, 0)),
       ([2, 1, 255, 0], some [255, 1, 2, 0], (0, 2)),
       ([0, 255, 1, 2], some [255, 0, 1, 2], (0, 1)),
       ([2, 1, 0, 255], some [2, 1, 255, 0], (2, 3)),
       ([0, 2, 1, 255], some [0, 255, 1, 2], (1, 3)),
       ([2, 255, 0, 1], some [2, 1, 0, 255], (3, 1)),
       ([0, 2, 255, 1], some [0, 2, 1, 255], (3, 2)),
       ([255, 2, 0, 1], some [2, 255, 0, 1], (1, 0))]⟩
    ⟨[],
      [([1, 0, 2, 255], none, (3, 3)),
       ([1, 255, 2, 0], some [1, 0, 2, 255], (3, 1)),
       ([1, 0, 255, 2], some [1, 0, 2, 255], (3, 2)),
       ([255, 1, 2, 0], some [1, 255, 2, 0], (1, 0)),
       ([255, 0, 1, 2], some [1, 0, 255, 2], (2, 0)),
       ([2, 1, 255, 0], some [255, 1, 2, 0], (0, 2)),
       ([0, 255, 1, 2], some [255, 0, 1, 2], (0, 1)),
       ([2, 1, 0, 255], some [2, 1, 255, 0], (2, 3)),
       ([0, 2, 1, 255], some [0, 255, 1, 2], (1, 3)),
       ([2, 255, 0, 1], some [2, 1, 0, 255], (3, 1)),
       ([0, 2, 255, 1], some [0, 2, 1, 255], (3, 2)),
       ([255, 2, 0, 1], some [0, 2, 255, 1], (2, 0))]⟩
    [255, 2, 0, 1]
  exact ⟨h.1 (by rfl) (some [2, 255, 0, 1], (1, 0))
      (some [0, 2, 255, 1], (2, 0)) (by decide) (by decide) (by decide),
    h.2 (by decide) (by rfl)⟩

/-! ## List-swap and map-key lemmas -/

theorem list_swap_length (l : List Nat) (i j : Nat) :
    (list_swap l i j).length = l.length := by
  rw [list_swap]
  cases hvi : l.get? i with
  | none => rfl
  | some vi =>
    cases hvj : l.get? j with
    | none => rfl
    | some vj => simp

theorem list_swap_mem_subset (l : List Nat) (i j : Nat) :
    ∀ x ∈ list_swap l i j, x ∈ l := by
  intro x hx
  rw [list_swap] at hx
  cases hvi : l.get? i with
  | none => rw [hvi] at hx; exact hx
  | some vi =>
    cases hvj : l.get? j with
    | none => rw [hvi, hvj] at hx; exact hx
    | some vj =>
      rw [hvi, hvj] at hx
      rcases List.mem_or_eq_of_mem_set hx with hx1 | hx1
      · rcases List.mem_or_eq_of_mem_set hx1 with hx2 | hx2
        · exact hx2
        · subst hx2
          exact List.get?_mem hvj
      · subst hx1
        exact List.get?_mem hvi

theorem pmap_contains_iff_mem_keys (m : ParentMap) (k : StateKey) :
    pmap_contains m k = true ↔ k ∈ m.map (·.1) := by
  induction m with
  | nil => simp [pmap_contains, pmap_lookup]
  | cons hd rest ih =>
    obtain ⟨k0, v0⟩ := hd
    by_cases h0 : k0 = k
    · subst h0
      simp [pmap_contains, pmap_lookup]
    · rw [pmap_contains, pmap_lookup, if_neg h0]
      rw [pmap_contains] at ih
      simp only [List.map_cons, List.mem_cons]
      constructor
      · intro hx
        exact Or.inr (ih.mp hx)
      · rintro (hx | hx)
        · exact absurd hx.symm h0
        · exact ih.mpr hx

theorem pmap_keys_insert_contains (m : ParentMap) (k : StateKey) (v : ParentRec)
    (h : pmap_contains m k = true) :
    (pmap_insert m k v).map (·.1) = m.map (·.1) := by
  induction m with
  | nil => simp [pmap_contains, pmap_lookup] at h
  | cons hd rest ih =>
    obtain ⟨k0, v0⟩ := hd
    by_cases h0 : k0 = k
    · subst h0
      rw [pmap_insert, if_pos rfl]
      simp
    · rw [pmap_insert, if_neg h0]
      rw [pmap_contains, pmap_lookup, if_neg h0] at h
      simp only [List.map_cons]
      rw [ih h]

theorem pmap_keys_insert_not_contains (m : ParentMap) (k : StateKey)
    (v : ParentRec) (h : pmap_contains m k = false) :
    (pmap_insert m k v).map (·.1) = m.map (·.1) ++ [k] := by
  induction m with
  | nil => rfl
  | cons hd rest ih =>
    obtain ⟨k0, v0⟩ := hd
    by_cases h0 : k0 = k
    · subst h0
      rw [pmap_contains, pmap_lookup, if_pos rfl] at h
      simp at h
    · rw [pmap_insert, if_neg h0]
      rw [pmap_contains, pmap_lookup, if_neg h0] at h
      simp only [List.map_cons]
      rw [ih h]
      rfl

theorem pmap_insert_fst_mem (m : ParentMap) (k : StateKey) (v : ParentRec) :
    ∀ p ∈ pmap_insert m k v, p.1 = k ∨ p ∈ m := by
  induction m with
  | nil =>
    intro p hp
    rw [pmap_insert] at hp
    simp at hp
    exact Or.inl (by rw [hp])
  | cons hd rest ih =>
    obtain ⟨k0, v0⟩ := hd
    intro p hp
    by_cases h0 : k0 = k
    · rw [pmap_insert, if_pos h0] at hp
      rcases List.mem_cons.mp hp with hp1 | hp1
      · exact Or.inl (by rw [hp1])
      · exact Or.inr (List.mem_cons.mpr (Or.inr hp1))
    · rw [pmap_insert, if_neg h0] at hp
      rcases List.mem_cons.mp hp with hp1 | hp1
      · exact Or.inr (List.mem_cons.mpr (Or.inl hp1))
      · rcases ih p hp1 with hp2 | hp2
        · exact Or.inl hp2
        · exact Or.inr (List.mem_cons.mpr (Or.inr hp2))

theorem pmap_insert_nodup (m : ParentMap) (k : StateKey) (v : ParentRec)
    (h : (m.map (·.1)).Nodup) :
    ((pmap_insert m k v).map (·.1)).Nodup := by
  cases hc : pmap_contains m k with
  | true => rw [pmap_keys_insert_contains m k v hc]; exact h
  | false =>
    rw [pmap_keys_insert_not_contains m k v hc]
    rw [List.nodup_append]
    refine ⟨h, List.nodup_singleton k, ?_⟩
    intro a ha hb
    simp only [List.mem_singleton] at hb
    subst hb
    exact absurd ((pmap_contains_iff_mem_keys m a).mpr ha) (by rw [hc]; simp)

theorem pmap_insert_length (m : ParentMap) (k : StateKey) (v : ParentRec) :
    (pmap_insert m k v).length = if pmap_contains m k = true
      then m.length else m.length + 1 := by
  cases hc : pmap_contains m k with
  | true =>
    rw [if_pos rfl]
    have := pmap_keys_insert_contains m k v hc
    have h1 : ((pmap_insert m k v).map (·.1)).length = (m.map (·.1)).length := by
      rw [this]
    simpa using h1
  | false =>
    rw [if_neg (by simp)]
    have := pmap_keys_insert_not_contains m k v hc
    have h1 : ((pmap_insert m k v).map (·.1)).length =
        (m.map (·.1) ++ [k]).length := by rw [this]
    simpa using h1

/-! ## Solver-step characterisation -/

theorem mapM_eq_some_map {α β : Type} (f : α → Option β) (g : α → β)
    (l : List α) (h : ∀ a ∈ l, f a = some (g a)) :
    l.mapM f = some (l.map g) := by
  induction l with
  | nil => rfl
  | cons hd tl ih =>
    rw [List.mapM_cons, h hd (List.mem_cons_self hd tl),
      ih (fun a ha => h a (List.mem_cons.mpr (Or.inr ha)))]
    rfl

theorem swappable_core_lt (w h e : Nat) (hw : 0 < w) (he : e < w * h) :
    ∀ j ∈ swappable_neighbours_core w h e, j < w * h := by
  have hc : e % w < w := Nat.mod_lt _ hw
  have hr : e / w < h := div_lt_of_lt_mul w h e hw he
  have hdm : w * (e / w) + e % w = e := Nat.div_add_mod e w
  intro j hj
  rw [swappable_core_eq w h e hw he] at hj
  have hmem : ∀ (p : Prop) [Decidable p] (x : Nat),
      (j ∈ if p then [x] else []) ↔ p ∧ j = x := by
    intro p _ x
    split_ifs with hp
    · simp [hp]
    · simp [hp]
  simp only [List.mem_append, hmem] at hj
  obtain ((hj | hj) | hj) | hj := hj
  · omega
  · have m1 : w * (e / w + 2) ≤ w * h := Nat.mul_le_mul_left w (by omega)
    have m2 : w * (e / w + 2) = w * (e / w) + 2 * w := by ring
    omega
  · omega
  · have m1 : w * (e / w + 1) ≤ w * h := Nat.mul_le_mul_left w (by omega)
    have m2 : w * (e / w + 1) = w * (e / w) + w := by ring
    omega

/-- The children generated when expanding a popped entry `(f, p, lsw)`:
one swapped state per swappable neighbour, filtered against the map that
already holds the popped entry's record. -/
def step_children (width height : Nat) (f : StateKey) (lsw : Nat × Nat)
    (m : ParentMap) : List FrontierEntry :=
  ((swappable_neighbours_core width height lsw.2).map
    (fun nb => ((list_swap f lsw.2 nb : StateKey),
      (some f : Option StateKey), (lsw.2, nb)))).filter
    (fun t => ¬ pmap_contains m t.1)

/-- One solver iteration on a non-empty frontier whose head satisfies the
in-range conditions: the record is inserted; the loop stops if the head
is the target and otherwise expands it. -/
theorem solver_step_cons (target : StateKey) (width height : Nat)
    (f : StateKey) (p : Option StateKey) (lsw : Nat × Nat)
    (rest : List FrontierEntry) (pm : ParentMap)
    (hw : width ≠ 0) (hlen : f.length = width * height)
    (hlsw : lsw.2 < width * height) :
    solver_step target width height ⟨(f, p, lsw) :: rest, pm⟩ =
      if f = target then .finished (pmap_insert pm f (p, lsw))
      else .going ⟨rest ++ step_children width height f lsw
          (pmap_insert pm f (p, lsw)), pmap_insert pm f (p, lsw)⟩ := by
  rw [solver_step]
  dsimp only
  by_cases hft : f = target
  · rw [if_pos hft, if_pos hft]
  · rw [if_neg hft, if_neg hft, if_neg hw]
    have hmapm : (swappable_neighbours_core width height lsw.2).mapM
        (fun nb =>
          if lsw.2 < f.length ∧ nb < f.length then
            some ((list_swap f lsw.2 nb : StateKey),
              (some f : Option StateKey), (lsw.2, nb))
          else none) =
        some ((swappable_neighbours_core width height lsw.2).map
          (fun nb => ((list_swap f lsw.2 nb : StateKey),
            (some f : Option StateKey), (lsw.2, nb)))) := by
      apply mapM_eq_some_map
      intro nb hnb
      rw [if_pos ⟨by omega, by
        rw [hlen]
        exact swappable_core_lt width height lsw.2 (by omega) (by omega) nb hnb⟩]
    rw [hmapm]
    rfl

/-- Peeling `solver_iterate` from the back instead of the front. -/
theorem solver_iterate_succ (target : StateKey) (width height : Nat)
    (n : Nat) (st : SolverState) :
    solver_iterate target width height (n + 1) st =
      match solver_iterate target width height n st with
      | .going st' => solver_step target width height st'
      | other => other := by
  induction n generalizing st with
  | zero =>
    rw [show solver_iterate target width height (0 + 1) st =
        (match solver_step target width height st with
          | .going st' => solver_iterate target width height 0 st'
          | other => other) from rfl]
    rw [show solver_iterate target width height 0 st = .going st from rfl]
    cases hs : solver_step target width height st with
    | going st' => exact hs.symm
    | finished m => exact hs.symm
    | panicked => exact hs.symm
  | succ n ih =>
    rw [show solver_iterate target width height (n + 1 + 1) st =
        (match solver_step target width height st with
          | .going st' => solver_iterate target width height (n + 1) st'
          | other => other) from rfl]
    rw [show solver_iterate target width height (n + 1) st =
        (match solver_step target width height st with
          | .going st' => solver_iterate target width height n st'
          | other => other) from rfl]
    cases hs : solver_step target width height st with
    | going st' => exact ih st'
    | finished m => rfl
    | panicked => rfl

/-! ## Invariant preservation and loop termination -/

theorem solver_step_preserves (target : StateKey) (width height : Nat)
    (st : SolverState) (hw : width ≠ 0) (hinv : SolverInv width height st) :
    solver_step target width height st ≠ .panicked ∧
      (∀ st', solver_step target width height st = .going st' →
        SolverInv width height st') ∧
      (∀ m, solver_step target width height st = .finished m →
        ∀ p ∈ m, KeysOK (width * height) p.1) := by
  obtain ⟨q, pm⟩ := st
  rcases q with _ | ⟨⟨f, p, lsw⟩, rest⟩
  · rw [solver_step]
    refine ⟨by simp, ?_, ?_⟩
    · intro st' hst'
      simp at hst'
    · intro m hm
      simp at hm
      subst hm
      exact hinv.map_ok
  · have hhead := hinv.queue_ok (f, p, lsw) (List.mem_cons_self _ _)
    have hlen : f.length = width * height := hhead.1.1
    have hlsw : lsw.2 < width * height := hhead.2
    rw [solver_step_cons target width height f p lsw rest pm hw hlen hlsw]
    by_cases hft : f = target
    · rw [if_pos hft]
      refine ⟨by simp, ?_, ?_⟩
      · intro st' hst'
        simp at hst'
      · intro m hm
        simp only [SolverStepRes.finished.injEq] at hm
        subst hm
        intro pr hpr
        rcases pmap_insert_fst_mem pm f (p, lsw) pr hpr with h1 | h1
        · rw [h1]; exact hhead.1
        · exact hinv.map_ok pr h1
    · rw [if_neg hft]
      refine ⟨by simp, ?_, ?_⟩
      · intro st' hst'
        simp only [SolverStepRes.going.injEq] at hst'
        subst hst'
        refine ⟨?_, ?_, ?_⟩
        · intro en hen
          rcases List.mem_append.mp hen with h1 | h1
          · exact hinv.queue_ok en (List.mem_cons.mpr (Or.inr h1))
          · have h2 := List.mem_filter.mp h1
            rcases List.mem_map.mp h2.1 with ⟨nb, hnb, hen2⟩
            subst hen2
            refine ⟨⟨?_, ?_⟩, ?_⟩
            · rw [list_swap_length, hlen]
            · intro x hx
              exact hhead.1.2 x (list_swap_mem_subset f lsw.2 nb x hx)
            · exact swappable_core_lt width height lsw.2 (by omega)
                (by omega) nb hnb
        · intro pr hpr
          rcases pmap_insert_fst_mem pm f (p, lsw) pr hpr with h1 | h1
          · rw [h1]; exact hhead.1
          · exact hinv.map_ok pr h1
        · exact pmap_insert_nodup pm f (p, lsw) hinv.keys_nodup
      · intro m hm
        simp at hm

/-- A monotone, bounded sequence of naturals is eventually constant. -/
theorem monotone_bounded_stabilizes (f : Nat → Nat) (C : Nat)
    (hmono : ∀ i, f i ≤ f (i + 1)) (hbound : ∀ i, f i ≤ C) :
    ∃ N, ∀ j, N ≤ j → f j = f N := by
  by_contra hcon
  push_neg at hcon
  have hmono' : ∀ i j, i ≤ j → f i ≤ f j := by
    intro i j hij
    induction j with
    | zero =>
      have h0 : i = 0 := by omega
      rw [h0]
    | succ j ih =>
      rcases Nat.lt_or_ge i (j + 1) with h1 | h1
      · exact le_trans (ih (by omega)) (hmono j)
      · have : i = j + 1 := by omega
        rw [this]
  have hstep : ∀ N, ∃ j, N ≤ j ∧ f N < f j := by
    intro N
    obtain ⟨j, hj1, hj2⟩ := hcon N
    exact ⟨j, hj1, lt_of_le_of_ne (hmono' N j hj1) (fun hx => hj2 hx.symm)⟩
  have hgrow : ∀ k, ∃ j, k ≤ f j := by
    intro k
    induction k with
    | zero => exact ⟨0, Nat.zero_le _⟩
    | succ k ih =>
      obtain ⟨j, hj⟩ := ih
      obtain ⟨j', _, hj2⟩ := hstep j
      exact ⟨j', by omega⟩
  obtain ⟨j, hj⟩ := hgrow (C + 1)
  exact absurd (hbound j) (by omega)

/-- A duplicate-free list of well-formed keys has at most `256 ^ n`
elements. -/
theorem nodup_keys_length_le (n : Nat) (ks : List StateKey)
    (hnd : ks.Nodup) (hok : ∀ k ∈ ks, KeysOK n k) :
    ks.length ≤ 256 ^ n := by
  classical
  have hinj : ∀ a ∈ ks, ∀ b ∈ ks,
      (fun (k : StateKey) => (fun i : Fin n => (⟨k.getD i 0 % 256,
        Nat.mod_lt _ (by omega)⟩ : Fin 256))) a =
      (fun (k : StateKey) => (fun i : Fin n => (⟨k.getD i 0 % 256,
        Nat.mod_lt _ (by omega)⟩ : Fin 256))) b → a = b := by
    intro a ha b hb hab
    have hoa := hok a ha
    have hob := hok b hb
    apply List.ext_getElem (by rw [hoa.1, hob.1])
    intro i hia hib
    have hia' : i < n := by rw [← hoa.1]; exact hia
    have h1 := congrFun hab ⟨i, hia'⟩
    simp only [Fin.mk.injEq] at h1
    have hga : a.getD i 0 = a[i] := List.getD_eq_getElem a 0 hia
    have hgb : b.getD i 0 = b[i] := List.getD_eq_getElem b 0 hib
    have hlta : a[i] < 256 := hoa.2 _ (List.getElem_mem hia)
    have hltb : b[i] < 256 := hob.2 _ (List.getElem_mem hib)
    rw [hga, hgb] at h1
    rw [Nat.mod_eq_of_lt hlta, Nat.mod_eq_of_lt hltb] at h1
    exact h1
  have hnd2 := List.Nodup.map_on hinj hnd
  have := List.Nodup.length_le_card hnd2
  rw [List.length_map] at this
  calc ks.length ≤ Fintype.card (Fin n → Fin 256) := this
    _ = 256 ^ n := by rw [Fintype.card_fun, Fintype.card_fin, Fintype.card_fin]

/-- The solver's BFS loop always terminates on well-formed input: some
number of iterations reaches the loop exit.  The argument is the finite
state universe: the visited map only grows, has duplicate-free
well-formed keys, and so stabilizes; after that no enqueue can ever
happen again (a pushed entry's key is absent from the stabilized map,
and popping it later would grow the map), so the frontier drains. -/
theorem solver_loop_terminates (target : StateKey) (width height : Nat)
    (st0 : SolverState) (hw : width ≠ 0)
    (hinv : SolverInv width height st0) :
    ∃ i m, solver_iterate target width height i st0 = .finished m := by
  classical
  by_contra hcon
  push_neg at hcon
  set S : Nat → SolverState := solver_state_at target width height st0 with hS
  -- The loop runs forever: every iterate is `going` and keeps the invariant.
  have hgo : ∀ i, solver_iterate target width height i st0 = .going (S i) ∧
      SolverInv width height (S i) := by
    intro i
    induction i with
    | zero =>
      constructor
      · rw [hS]
        rw [solver_state_at]
        rfl
      · rw [hS, solver_state_at]
        exact hinv
    | succ i ih =>
      have hpres := solver_step_preserves target width height (S i) hw ih.2
      have hit : solver_iterate target width height (i + 1) st0 =
          solver_step target width height (S i) := by
        rw [solver_iterate_succ, ih.1]
      cases hstep : solver_step target width height (S i) with
      | panicked => exact absurd hstep hpres.1
      | finished m => exact absurd (hit.trans hstep) (hcon (i + 1) m)
      | going st' =>
        constructor
        · rw [hit, hstep, hS, solver_state_at, hit, hstep]
        · have : S (i + 1) = st' := by
            rw [hS, solver_state_at, hit, hstep]
          rw [this]
          exact hpres.2.1 st' hstep
  have hstep : ∀ i, solver_step target width height (S i) = .going (S (i + 1)) := by
    intro i
    have h1 : solver_iterate target width height (i + 1) st0 =
        solver_step target width height (S i) := by
      rw [solver_iterate_succ, (hgo i).1]
    rw [← h1, (hgo (i + 1)).1]
  -- Shape of each step: a head is popped, children are appended.
  have hshape : ∀ i, ∃ f p lsw rest,
      (S i).queue = (f, p, lsw) :: rest ∧ f ≠ target ∧
      (S (i + 1)).queue = rest ++ step_children width height f lsw
        (pmap_insert (S i).pmap f (p, lsw)) ∧
      (S (i + 1)).pmap = pmap_insert (S i).pmap f (p, lsw) := by
    intro i
    have hst := hstep i
    rcases hq : (S i).queue with _ | ⟨⟨f, p, lsw⟩, rest⟩
    · exfalso
      have : solver_step target width height (S i) = .finished (S i).pmap := by
        have hrw : S i = (⟨(S i).queue, (S i).pmap⟩ : SolverState) := rfl
        rw [solver_step]
        rw [hq]
      rw [this] at hst
      exact absurd hst (by simp)
    · have hhead := (hgo i).2.queue_ok (f, p, lsw) (by rw [hq]; exact List.mem_cons_self _ _)
      have hSieq : S i = (⟨(f, p, lsw) :: rest, (S i).pmap⟩ : SolverState) := by
        rw [← hq]
      rw [hSieq, solver_step_cons target width height f p lsw rest (S i).pmap hw
        hhead.1.1 hhead.2] at hst
      by_cases hft : f = target
      · rw [if_pos hft] at hst
        exact absurd hst (by simp)
      · rw [if_neg hft] at hst
        simp only [SolverStepRes.going.injEq] at hst
        exact ⟨f, p, lsw, rest, rfl, hft, by rw [← hst], by rw [← hst]⟩
  -- The map size is monotone and bounded, hence stabilizes.
  have hmono : ∀ i, (S i).pmap.length ≤ (S (i + 1)).pmap.length := by
    intro i
    obtain ⟨f, p, lsw, rest, _, _, _, hpm⟩ := hshape i
    rw [hpm, pmap_insert_length]
    split_ifs <;> omega
  have hbound : ∀ i, (S i).pmap.length ≤ 256 ^ (width * height) := by
    intro i
    have h1 : ((S i).pmap.map (·.1)).length ≤ 256 ^ (width * height) := by
      apply nodup_keys_length_le (width * height) _ (hgo i).2.keys_nodup
      intro k hk
      rcases List.mem_map.mp hk with ⟨pr, hpr, hpr2⟩
      rw [← hpr2]
      exact (hgo i).2.map_ok pr hpr
    simpa using h1
  obtain ⟨N, hN⟩ := monotone_bounded_stabilizes
    (fun i => (S i).pmap.length) (256 ^ (width * height)) hmono hbound
  -- After stabilization the key set is frozen.
  have hkeys : ∀ j, N ≤ j → (S j).pmap.map (·.1) = (S N).pmap.map (·.1) := by
    intro j hj
    induction j with
    | zero =>
      have : N = 0 := by omega
      rw [this]
    | succ j ih =>
      rcases Nat.lt_or_ge j N with h1 | h1
      · have : N = j + 1 := by omega
        rw [this]
      · obtain ⟨f, p, lsw, rest, _, _, _, hpm⟩ := hshape j
        cases hc : pmap_contains (S j).pmap f with
        | true =>
          rw [hpm, pmap_keys_insert_contains _ _ _ hc]
          exact ih h1
        | false =>
          exfalso
          have hlen : (S (j + 1)).pmap.length = (S j).pmap.length + 1 := by
            rw [hpm, pmap_insert_length, if_neg (by rw [hc]; simp)]
          have e1 := hN j h1
          have e2 := hN (j + 1) (by omega)
          omega
  -- Entries keep their identity as they move to the queue head.
  have hfifo : ∀ q t en, (S t).queue.get? q = some en →
      (S (t + q)).queue.get? 0 = some en := by
    intro q
    induction q with
    | zero => intro t en h; exact h
    | succ q ih =>
      intro t en h
      obtain ⟨f, p, lsw, rest, hq, _, hq', _⟩ := hshape t
      have hlt : q + 1 < (S t).queue.length := (List.get?_eq_some.mp h).1
      rw [hq] at h hlt
      have hrest : rest.get? q = some en := by
        simpa using h
      have hq2 : (S (t + 1)).queue.get? q = some en := by
        rw [hq']
        rw [List.get?_append]
        · exact hrest
        · exact (List.get?_eq_some.mp hrest).1
      have := ih (t + 1) en hq2
      have harith : t + 1 + q = t + (q + 1) := by omega
      rw [harith] at this
      exact this
  -- Whatever a step enqueues has a key absent from the frozen key set.
  -- Case 1: some step at or after N enqueues something.
  by_cases hpush : ∃ j, N ≤ j ∧ (S j).queue.length ≤ (S (j + 1)).queue.length
  · obtain ⟨j, hjN, hjlen⟩ := hpush
    obtain ⟨f, p, lsw, rest, hq, _, hq', hpm⟩ := hshape j
    have hchild : step_children width height f lsw
        (pmap_insert (S j).pmap f (p, lsw)) ≠ [] := by
      intro hnil
      rw [hq', hnil, List.append_nil] at hjlen
      rw [hq] at hjlen
      simp at hjlen
    obtain ⟨en, hen⟩ := List.exists_mem_of_ne_nil _ hchild
    have hen_q : en ∈ (S (j + 1)).queue := by
      rw [hq']
      exact List.mem_append.mpr (Or.inr hen)
    have hen_not : pmap_contains (S (j + 1)).pmap en.1 = false := by
      have hf := List.mem_filter.mp hen
      rw [hpm]
      rcases hc : pmap_contains (pmap_insert (S j).pmap f (p, lsw)) en.1 with _ | _
      · rfl
      · exfalso
        have := hf.2
        rw [hc] at this
        simp at this
    obtain ⟨q, hqget⟩ := List.mem_iff_get?.mp hen_q
    have hhead := hfifo q (j + 1) en hqget
    obtain ⟨f', p', lsw', rest', hq2, _, _, hpm2⟩ := hshape (j + 1 + q)
    have hfen : (f', p', lsw') = en := by
      rw [hq2] at hhead
      simpa using hhead
    have hcontains_then : pmap_contains (S (j + 1 + q)).pmap f' = false := by
      have hmem1 : f' ∉ (S (j + 1)).pmap.map (·.1) := by
        intro hmem
        have : pmap_contains (S (j + 1)).pmap en.1 = true := by
          rw [pmap_contains_iff_mem_keys]
          rw [← hfen]
          exact hmem
        rw [hen_not] at this
        simp at this
      have hkeq : (S (j + 1 + q)).pmap.map (·.1) = (S (j + 1)).pmap.map (·.1) := by
        rw [hkeys (j + 1 + q) (by omega), hkeys (j + 1) (by omega)]
      rcases hc : pmap_contains (S (j + 1 + q)).pmap f' with _ | _
      · rfl
      · exfalso
        apply hmem1
        rw [← hkeq]
        exact (pmap_contains_iff_mem_keys _ _).mp hc
    have hgrow : (S (j + 1 + q + 1)).pmap.length = (S (j + 1 + q)).pmap.length + 1 := by
      rw [hpm2, pmap_insert_length, if_neg (by rw [hcontains_then]; simp)]
    have e1 := hN (j + 1 + q) (by omega)
    have e2 := hN (j + 1 + q + 1) (by omega)
    omega
  -- Case 2: every step at or after N strictly shrinks the queue: it drains.
  · push_neg at hpush
    have hdec : ∀ k, (S (N + k)).queue.length + k ≤ (S N).queue.length := by
      intro k
      induction k with
      | zero => simp
      | succ k ih =>
        have h1 := hpush (N + k) (by omega)
        have harith : N + (k + 1) = N + k + 1 := by omega
        rw [harith]
        omega
    have h0 := hdec ((S N).queue.length + 1)
    have : (S (N + ((S N).queue.length + 1))).queue.length + ((S N).queue.length + 1) ≤
        (S N).queue.length := h0
    omega

/-! ## Fuel bridges and determinism -/

theorem iterate_finished_run (target : StateKey) (width height : Nat) :
    ∀ n st m, solver_iterate target width height n st = .finished m →
      run_solver_loop target width height (n + 1) st = some (some m) := by
  intro n
  induction n with
  | zero =>
    intro st m h
    rw [show solver_iterate target width height 0 st = .going st from rfl] at h
    exact absurd h (by simp)
  | succ n ih =>
    intro st m h
    rw [show solver_iterate target width height (n + 1) st =
        (match solver_step target width height st with
          | .going st' => solver_iterate target width height n st'
          | other => other) from rfl] at h
    rw [run_solver_loop]
    cases hs : solver_step target width height st with
    | panicked => rw [hs] at h; exact absurd h (by simp)
    | finished m' =>
      rw [hs] at h
      simp only [SolverStepRes.finished.injEq] at h
      rw [h]
    | going st' =>
      rw [hs] at h
      exact ih st' m h

theorem run_solver_loop_mono (target : StateKey) (width height : Nat) :
    ∀ fuel st r, run_solver_loop target width height fuel st = some r →
      run_solver_loop target width height (fuel + 1) st = some r := by
  intro fuel
  induction fuel with
  | zero =>
    intro st r h
    rw [run_solver_loop] at h
    exact absurd h (by simp)
  | succ fuel ih =>
    intro st r h
    rw [run_solver_loop] at h ⊢
    cases hs : solver_step target width height st with
    | panicked => rw [hs] at h; exact h
    | finished m => rw [hs] at h; exact h
    | going st' =>
      rw [hs] at h
      exact ih st' r h

theorem run_solver_loop_mono_le (target : StateKey) (width height : Nat)
    (fuel fuel' : Nat) (st : SolverState) (r : Option ParentMap)
    (hle : fuel ≤ fuel')
    (h : run_solver_loop target width height fuel st = some r) :
    run_solver_loop target width height fuel' st = some r := by
  induction fuel' with
  | zero =>
    have : fuel = 0 := by omega
    rw [← this]
    exact h
  | succ fuel' ih =>
    rcases Nat.lt_or_ge fuel (fuel' + 1) with h1 | h1
    · exact run_solver_loop_mono target width height fuel' st r (ih (by omega))
    · have : fuel = fuel' + 1 := by omega
      rw [← this]
      exact h

theorem trace_loop_mono (m : ParentMap) (initialKey : StateKey) :
    ∀ fuel nk sw r, trace_loop m initialKey fuel nk sw = some r →
      trace_loop m initialKey (fuel + 1) nk sw = some r := by
  intro fuel
  induction fuel with
  | zero =>
    intro nk sw r h
    rw [trace_loop] at h
    exact absurd h (by simp)
  | succ fuel ih =>
    intro nk sw r h
    rw [trace_loop] at h ⊢
    cases hx : nk.bind (pmap_lookup m) with
    | none => rw [hx] at h; exact h
    | some pr =>
      obtain ⟨pk, swp⟩ := pr
      rw [hx] at h
      dsimp only at h ⊢
      by_cases hp : pk = some initialKey
      · rw [if_pos hp] at h ⊢
        exact h
      · rw [if_neg hp] at h ⊢
        exact ih pk _ r h

theorem trace_loop_mono_le (m : ParentMap) (initialKey : StateKey)
    (fuel fuel' : Nat) (nk : Option StateKey) (sw : List (Nat × Nat))
    (r : List (Nat × Nat)) (hle : fuel ≤ fuel')
    (h : trace_loop m initialKey fuel nk sw = some r) :
    trace_loop m initialKey fuel' nk sw = some r := by
  induction fuel' with
  | zero =>
    have : fuel = 0 := by omega
    rw [← this]
    exact h
  | succ fuel' ih =>
    rcases Nat.lt_or_ge fuel (fuel' + 1) with h1 | h1
    · exact trace_loop_mono m initialKey fuel' nk sw r (ih (by omega))
    · have : fuel = fuel' + 1 := by omega
      rw [← this]
      exact h

theorem find_swap_order_mono (fields : List Nat) (width height : Nat)
    (fuel fuel' : Nat) (out : RsOutcome (List (Nat × Nat)))
    (hle : fuel ≤ fuel')
    (h : find_swap_order fuel fields width height = some out) :
    find_swap_order fuel' fields width height = some out := by
  rw [find_swap_order] at h ⊢
  cases hinit : initialize_fields fields.length with
  | panicked => rw [hinit] at h; exact h
  | err e => rw [hinit] at h; exact h
  | ok target =>
    rw [hinit] at h
    dsimp only at h ⊢
    by_cases hsolved : fields = target
    · rw [if_pos hsolved] at h ⊢
      exact h
    · rw [if_neg hsolved] at h ⊢
      cases hempty : get_empty_field_idx fields with
      | none => rw [hempty] at h; exact h
      | some e =>
        rw [hempty] at h
        dsimp only at h
        show (match run_solver_loop target width height fuel'
            ⟨[(fields, none, (e, e))], []⟩ with
          | none => none
          | some none => some RsOutcome.panicked
          | some (some m) =>
            if pmap_contains m target = true then
              match trace_loop m fields fuel' (some target) [] with
              | none => none
              | some swaps => some (RsOutcome.ok swaps.reverse)
            else some (RsOutcome.ok [])) = some out
        cases hrun : run_solver_loop target width height fuel
            ⟨[(fields, none, (e, e))], []⟩ with
        | none => rw [hrun] at h; exact absurd h (by simp)
        | some om =>
          rw [run_solver_loop_mono_le target width height fuel fuel' _ om hle hrun]
          rw [hrun] at h
          cases om with
          | none => exact h
          | some m =>
            dsimp only at h ⊢
            by_cases hct : pmap_contains m target = true
            · rw [if_pos hct] at h ⊢
              cases htr : trace_loop m fields fuel (some target) [] with
              | none => rw [htr] at h; exact absurd h (by simp)
              | some swaps =>
                rw [trace_loop_mono_le m fields fuel fuel' _ _ swaps hle htr]
                rw [htr] at h
                exact h
            · rw [if_neg hct] at h ⊢
              exact h

/-- The source loop's result relation is deterministic: one input, one
result. -/
theorem FindSwapOrder_det (fields : List Nat) (width height : Nat)
    (out1 out2 : RsOutcome (List (Nat × Nat)))
    (h1 : FindSwapOrder fields width height out1)
    (h2 : FindSwapOrder fields width height out2) : out1 = out2 := by
  obtain ⟨f1, hf1⟩ := h1
  obtain ⟨f2, hf2⟩ := h2
  have e1 := find_swap_order_mono fields width height f1 (f1 + f2) out1
    (by omega) hf1
  have e2 := find_swap_order_mono fields width height f2 (f1 + f2) out2
    (by omega) hf2
  rw [e1] at e2
  exact (Option.some.injEq _ _).mp e2

/-- The invariant reaches the loop exit: the final visited map of a
well-formed run has well-formed keys. -/
theorem iterate_finished_inv (target : StateKey) (width height : Nat)
    (hw : width ≠ 0) :
    ∀ i st0 m, SolverInv width height st0 →
      solver_iterate target width height i st0 = .finished m →
      ∀ p ∈ m, KeysOK (width * height) p.1 := by
  intro i
  induction i with
  | zero =>
    intro st0 m _ h
    rw [show solver_iterate target width height 0 st0 = .going st0 from rfl] at h
    exact absurd h (by simp)
  | succ i ih =>
    intro st0 m hinv h
    rw [show solver_iterate target width height (i + 1) st0 =
        (match solver_step target width height st0 with
          | .going st' => solver_iterate target width height i st'
          | other => other) from rfl] at h
    have hpres := solver_step_preserves target width height st0 hw hinv
    cases hs : solver_step target width height st0 with
    | panicked => exact absurd hs hpres.1
    | finished m' =>
      rw [hs] at h
      simp only [SolverStepRes.finished.injEq] at h
      subst h
      exact hpres.2.2 m' hs
    | going st' =>
      rw [hs] at h
      exact ih st' m (hpres.2.1 st' hs) h

set_option maxRecDepth 10000 in
/-- C1 counterexample: on the `16 × 16` board — within the data model's
`width * height ≤ 256` capacity — the state one legal swap away from the
canonical solved state is reachable, yet `find_swap_order` returns
`Ok([])`, which does not solve it.  The cause is the silent clamp in
`initialize_fields`: the computed target board has only 255 cells, so
its key can never be found among the 256-cell keys of the search. -/
theorem C1_counterexample_capacity_clamp :
    ReachableState 16 16 (List.range 254 ++ [255, 254]) ∧
      FindSwapOrder (List.range 254 ++ [255, 254]) 16 16 (.ok []) ∧
      (∀ out, FindSwapOrder (List.range 254 ++ [255, 254]) 16 16 out →
        out = .ok []) ∧
      apply_swaps [] (List.range 254 ++ [255, 254]) ≠ canonical_state 16 16 := by
  have hlen : (List.range 254 ++ [255, 254] : List Nat).length = 256 := by simp
  have htarget : initialize_fields (List.range 254 ++ [255, 254] : List Nat).length =
      .ok (List.range 254 ++ [255]) := by rw [hlen]; rfl
  have hne : (List.range 254 ++ [255, 254] : List Nat) ≠ List.range 254 ++ [255] := by
    intro heq
    have := congrArg List.length heq
    simp at this
  have hempty : get_empty_field_idx (List.range 254 ++ [255, 254]) = some 254 := by
    rfl
  have hinv : SolverInv 16 16
      ⟨[(List.range 254 ++ [255, 254], none, (254, 254))], []⟩ := by
    refine ⟨?_, ?_, ?_⟩
    · intro en hen
      simp only [List.mem_singleton] at hen
      subst hen
      refine ⟨⟨by simp, ?_⟩, by norm_num⟩
      intro x hx
      rcases List.mem_append.mp hx with h1 | h1
      · have := List.mem_range.mp h1
        omega
      · simp at h1
        omega
    · intro p hp
      simp at hp
    · simp
  obtain ⟨i, m, hfin⟩ := solver_loop_terminates (List.range 254 ++ [255]) 16 16
    ⟨[(List.range 254 ++ [255, 254], none, (254, 254))], []⟩ (by norm_num) hinv
  have hkeysok := iterate_finished_inv (List.range 254 ++ [255]) 16 16
    (by norm_num) i _ m hinv hfin
  have hnotfound : pmap_contains m (List.range 254 ++ [255]) = false := by
    rcases hc : pmap_contains m (List.range 254 ++ [255]) with _ | _
    · rfl
    · exfalso
      have hmem := (pmap_contains_iff_mem_keys _ _).mp hc
      rcases List.mem_map.mp hmem with ⟨pr, hpr, hpr2⟩
      have hok := hkeysok pr hpr
      have hl := hok.1
      rw [hpr2] at hl
      simp at hl
  have hrun := iterate_finished_run (List.range 254 ++ [255]) 16 16 i _ m hfin
  have hfso : find_swap_order (i + 1) (List.range 254 ++ [255, 254]) 16 16 =
      some (.ok []) := by
    rw [find_swap_order, htarget]
    dsimp only
    rw [if_neg hne, hempty]
    dsimp only
    rw [hrun]
    dsimp only
    rw [if_neg (by rw [hnotfound]; exact Bool.false_ne_true)]
  refine ⟨?_, ⟨i + 1, hfso⟩, ?_, ?_⟩
  · apply Relation.ReflTransGen.single
    refine ⟨(255, 254), ⟨by decide, Or.inl (by decide)⟩, by decide⟩
  · intro out hout
    exact FindSwapOrder_det _ 16 16 out (.ok []) hout ⟨i + 1, hfso⟩
  · rw [apply_swaps]
    decide

/-! ## Swap characterisation and blank tracking -/

theorem list_swap_get? (l : List Nat) (i j : Nat) (hi : i < l.length)
    (hj : j < l.length) (k : Nat) :
    (list_swap l i j).get? k =
      if k = j then l.get? i else if k = i then l.get? j else l.get? k := by
  have hvi : l.get? i = some (l.get ⟨i, hi⟩) := List.get?_eq_get hi
  have hvj : l.get? j = some (l.get ⟨j, hj⟩) := List.get?_eq_get hj
  simp only [list_swap, hvi, hvj]
  by_cases hkj : k = j
  · subst hkj
    rw [if_pos rfl, List.get?_set_eq_of_lt _ (by simpa using hj)]
  · rw [if_neg hkj, List.get?_set_ne _ _ (fun hx => hkj hx.symm)]
    by_cases hki : k = i
    · subst hki
      rw [if_pos rfl, List.get?_set_eq_of_lt _ hi]
    · rw [if_neg hki, List.get?_set_ne _ _ (fun hx => hki hx.symm)]

theorem list_swap_comm (l : List Nat) (i j : Nat) (hi : i < l.length)
    (hj : j < l.length) : list_swap l i j = list_swap l j i := by
  apply List.ext
  intro k
  rw [list_swap_get? l i j hi hj, list_swap_get? l j i hj hi]
  by_cases hkj : k = j
  · by_cases hki : k = i
    · rw [if_pos hkj, if_pos hki]
      have hij : i = j := by omega
      rw [hij]
    · rw [if_pos hkj, if_neg hki, if_pos hkj]
  · by_cases hki : k = i
    · rw [if_neg hkj, if_pos hki, if_pos hki]
    · rw [if_neg hkj, if_neg hki, if_neg hki, if_neg hkj]

theorem list_swap_involutive (l : List Nat) (i j : Nat) (hi : i < l.length)
    (hj : j < l.length) : list_swap (list_swap l i j) i j = l := by
  have hi' : i < (list_swap l i j).length := by rw [list_swap_length]; exact hi
  have hj' : j < (list_swap l i j).length := by rw [list_swap_length]; exact hj
  apply List.ext
  intro k
  rw [list_swap_get? _ i j hi' hj']
  by_cases hkj : k = j
  · rw [if_pos hkj, list_swap_get? l i j hi hj]
    by_cases hij : i = j
    · rw [if_pos hij, hkj, hij]
    · rw [if_neg hij, if_pos rfl, hkj]
  · rw [if_neg hkj]
    by_cases hki : k = i
    · rw [if_pos hki, list_swap_get? l i j hi hj, if_pos rfl, hki]
    · rw [if_neg hki, list_swap_get? l i j hi hj, if_neg hkj, if_neg hki]

theorem blank_lt (s : List Nat) (e : Nat) (hb : BlankAt s e) : e < s.length :=
  (List.get?_eq_some.mp hb.1).1

theorem BlankAt_swap (s : List Nat) (e j : Nat) (hb : BlankAt s e)
    (hj : j < s.length) (hne : j ≠ e) :
    BlankAt (list_swap s e j) j := by
  have he : e < s.length := blank_lt s e hb
  constructor
  · rw [list_swap_get? s e j he hj, if_pos rfl]
    exact hb.1
  · intro i hi
    rw [list_swap_get? s e j he hj] at hi
    by_cases hij : i = j
    · exact hij
    · rw [if_neg hij] at hi
      by_cases hie : i = e
      · rw [if_pos hie] at hi
        exact absurd (hb.2 j hi) hne
      · rw [if_neg hie] at hi
        exact absurd (hb.2 i hi) hie

theorem grid_adjacent_pos (w h i j : Nat) (hg : grid_adjacent w h i j) :
    0 < w ∧ 0 < h := by
  have h1 := hg.1
  constructor
  · by_contra hw
    have : w = 0 := by omega
    rw [this] at h1
    simp at h1
  · by_contra hh
    have : h = 0 := by omega
    rw [this] at h1
    simp at h1

theorem orth_adjacent_ne (w i j : Nat) (hw : 0 < w)
    (ho : orth_adjacent w i j) : i ≠ j := by
  rcases ho with ⟨_, hx | hx⟩ | hx | hx <;> omega

theorem orth_adjacent_symm (w i j : Nat) (ho : orth_adjacent w i j) :
    orth_adjacent w j i := by
  rcases ho with ⟨hrow, hx⟩ | hx
  · exact Or.inl ⟨hrow.symm, hx.symm⟩
  · exact Or.inr hx.symm

theorem grid_adjacent_symm (w h i j : Nat) (hg : grid_adjacent w h i j) :
    grid_adjacent w h j i :=
  ⟨hg.2.1, hg.1, orth_adjacent_symm w i j hg.2.2⟩

theorem grid_adjacent_ne (w h i j : Nat) (hg : grid_adjacent w h i j) :
    i ≠ j :=
  orth_adjacent_ne w i j (grid_adjacent_pos w h i j hg).1 hg.2.2

/-- An adjacency step, seen from a state with a known blank: the blank
moves to an adjacent cell and the states are each other's swap. -/
theorem StateAdj_char (w h : Nat) (s t : List Nat) (e : Nat)
    (hlen : s.length = w * h) (hblank : BlankAt s e)
    (hadj : StateAdj w h s t) :
    ∃ j, grid_adjacent w h e j ∧ t = list_swap s e j ∧ BlankAt t j := by
  obtain ⟨⟨a, b⟩, ⟨hgrid, hsent⟩, ht⟩ := hadj
  have hgrid' : grid_adjacent w h a b := hgrid
  have ha : a < s.length := by rw [hlen]; exact hgrid'.1
  have hb : b < s.length := by rw [hlen]; exact hgrid'.2.1
  have hne := grid_adjacent_ne w h a b hgrid'
  have ht' : t = list_swap s a b := ht
  rcases hsent with hs1 | hs1
  · have hae : a = e := hblank.2 a hs1
    rw [hae] at ht' hgrid' hne
    refine ⟨b, hgrid', ht', ?_⟩
    rw [ht']
    exact BlankAt_swap s e b hblank hb (fun hx => hne hx.symm)
  · have hbe : b = e := hblank.2 b hs1
    rw [hbe] at ht' hgrid' hne hb
    have hcomm : t = list_swap s e a := by
      rw [ht']
      exact list_swap_comm s a e ha hb
    refine ⟨a, grid_adjacent_symm w h a e hgrid', hcomm, ?_⟩
    rw [hcomm]
    exact BlankAt_swap s e a hblank ha hne

theorem WFState_adj (w h : Nat) (s t : List Nat) (hwf : WFState w h s)
    (hadj : StateAdj w h s t) : WFState w h t := by
  obtain ⟨hlen, e, hblank⟩ := hwf
  obtain ⟨j, hgrid, ht, hblankt⟩ := StateAdj_char w h s t e hlen hblank hadj
  refine ⟨?_, j, hblankt⟩
  rw [ht, list_swap_length, hlen]

theorem StateAdj_symm (w h : Nat) (s t : List Nat) (hwf : WFState w h s)
    (hadj : StateAdj w h s t) : StateAdj w h t s := by
  obtain ⟨hlen, e, hblank⟩ := hwf
  obtain ⟨j, hgrid, ht, hblankt⟩ := StateAdj_char w h s t e hlen hblank hadj
  have he : e < s.length := blank_lt s e hblank
  have hj : j < s.length := by rw [hlen]; exact hgrid.2.1
  refine ⟨(j, e), ⟨grid_adjacent_symm w h e j hgrid, Or.inl ?_⟩, ?_⟩
  · rw [ht]
    have := (BlankAt_swap s e j hblank hj
      (fun hx => grid_adjacent_ne w h e j hgrid hx.symm)).1
    exact this
  · rw [ht]
    have h1 : list_swap (list_swap s e j) j e = list_swap (list_swap s e j) e j := by
      apply list_swap_comm
      · rw [list_swap_length]; exact hj
      · rw [list_swap_length]; exact he
    rw [h1, list_swap_involutive s e j he hj]

theorem ReachN_wf (w h : Nat) (n : Nat) (s t : List Nat)
    (hwf : WFState w h s) (hr : ReachN w h n s t) : WFState w h t := by
  induction hr with
  | refl s => exact hwf
  | tail n s t u hpath hadj ih => exact WFState_adj w h t u (ih hwf) hadj

theorem ReachN_compose (w h : Nat) (a b : Nat) (s t u : List Nat)
    (h1 : ReachN w h a s t) (h2 : ReachN w h b t u) :
    ReachN w h (a + b) s u := by
  induction h2 with
  | refl t => exact h1
  | tail n t v x hpath hadj ih =>
    exact ReachN.tail (a + n) s v x (ih h1) hadj

theorem ReachN_single (w h : Nat) (s t : List Nat)
    (hadj : StateAdj w h s t) : ReachN w h 1 s t :=
  ReachN.tail 0 s s t (ReachN.refl s) hadj

theorem ReachN_head (w h : Nat) (n : Nat) (s u : List Nat)
    (hr : ReachN w h (n + 1) s u) :
    ∃ t, StateAdj w h s t ∧ ReachN w h n t u := by
  induction n generalizing u with
  | zero =>
    cases hr with
    | tail n s t u hpath hadj =>
      cases hpath with
      | refl _ => exact ⟨u, hadj, ReachN.refl u⟩
  | succ n ih =>
    cases hr with
    | tail _ s t u hpath hadj =>
      obtain ⟨t', hadj', hr'⟩ := ih t hpath
      exact ⟨t', hadj', ReachN.tail n t' t u hr' hadj⟩

theorem ReachN_symm (w h : Nat) (n : Nat) (s t : List Nat)
    (hwf : WFState w h s) (hr : ReachN w h n s t) : ReachN w h n t s := by
  induction hr with
  | refl s => exact ReachN.refl s
  | tail n s t u hpath hadj ih =>
    have hwft : WFState w h t := ReachN_wf w h n s t hwf hpath
    have hback : StateAdj w h u t := StateAdj_symm w h t u hwft hadj
    have h1 : ReachN w h 1 u t := ReachN_single w h u t hback
    have := ReachN_compose w h 1 n u t s h1 (ih hwf)
    rw [Nat.add_comm] at this
    exact this

theorem ReflTransGen_iff_ReachN (w h : Nat) (s t : List Nat) :
    Relation.ReflTransGen (StateAdj w h) s t ↔ ∃ n, ReachN w h n s t := by
  constructor
  · intro hr
    induction hr with
    | refl => exact ⟨0, ReachN.refl s⟩
    | tail hpath hadj ih =>
      obtain ⟨n, hn⟩ := ih
      exact ⟨n + 1, ReachN.tail n _ _ _ hn hadj⟩
  · rintro ⟨n, hn⟩
    induction hn with
    | refl s => exact Relation.ReflTransGen.refl
    | tail n s t u hpath hadj ih =>
      exact Relation.ReflTransGen.tail ih hadj

/-! ## Distance lemmas -/

theorem state_dist_le (w h : Nat) (s t : List Nat) (n : Nat)
    (hr : ReachN w h n s t) : state_dist w h s t ≤ n :=
  Nat.sInf_le hr

theorem state_dist_spec (w h : Nat) (s t : List Nat)
    (hr : ∃ n, ReachN w h n s t) :
    ReachN w h (state_dist w h s t) s t :=
  Nat.sInf_mem hr

theorem state_dist_self (w h : Nat) (s : List Nat) :
    state_dist w h s s = 0 :=
  Nat.eq_zero_of_le_zero (Nat.sInf_le (ReachN.refl s))

theorem state_dist_eq_zero (w h : Nat) (s t : List Nat)
    (hr : ∃ n, ReachN w h n s t) (hd : state_dist w h s t = 0) : s = t := by
  have := state_dist_spec w h s t hr
  rw [hd] at this
  cases this with
  | refl _ => rfl

theorem state_dist_adj_le (w h : Nat) (s x y : List Nat)
    (hr : ∃ n, ReachN w h n s x) (hadj : StateAdj w h x y) :
    state_dist w h s y ≤ state_dist w h s x + 1 :=
  state_dist_le w h s y _
    (ReachN.tail _ s x y (state_dist_spec w h s x hr) hadj)

/-! ## Bipartite structure via the blank's checkerboard parity -/

theorem grid_adjacent_parity (w h i j : Nat) (hg : grid_adjacent w h i j) :
    (i / w + i % w + (j / w + j % w)) % 2 = 1 := by
  have hw0 : 0 < w := (grid_adjacent_pos w h i j hg).1
  have horth := hg.2.2
  rw [orth_adjacent_char w i j hw0] at horth
  rcases horth with ⟨hwle, hj⟩ | hj | ⟨hc, hj⟩ | ⟨hc, hj⟩
  · have h1 : (j + w) / w = j / w + 1 := by rw [Nat.add_div_right _ hw0]
    have h2 : (j + w) % w = j % w := Nat.add_mod_right j w
    rw [← hj, h1, h2]
    omega
  · have h1 : (i + w) / w = i / w + 1 := by rw [Nat.add_div_right _ hw0]
    have h2 : (i + w) % w = i % w := Nat.add_mod_right i w
    rw [hj, h1, h2]
    omega
  · have hdm : w * (i / w) + i % w = i := Nat.div_add_mod i w
    have hmw : i % w < w := Nat.mod_lt _ hw0
    have hje : j = w * (i / w) + (i % w - 1) := by omega
    have h1 : j / w = i / w := by rw [hje, div_mul_add _ _ _ hw0 (by omega)]
    have h2 : j % w = i % w - 1 := by
      rw [hje, Nat.mul_add_mod, Nat.mod_eq_of_lt (by omega)]
    omega
  · have hdm : w * (i / w) + i % w = i := Nat.div_add_mod i w
    have hje : j = w * (i / w) + (i % w + 1) := by omega
    have h1 : j / w = i / w := by rw [hje, div_mul_add _ _ _ hw0 (by omega)]
    have h2 : j % w = i % w + 1 := by
      rw [hje, Nat.mul_add_mod, Nat.mod_eq_of_lt (by omega)]
    omega

theorem ReachN_blank_parity (w h : Nat) :
    ∀ n (s t : List Nat), ReachN w h n s t →
      ∀ e f, WFState w h s → BlankAt s e → BlankAt t f →
      (e / w + e % w + n) % 2 = (f / w + f % w) % 2 := by
  intro n s t hr
  induction hr with
  | refl s1 =>
    intro e f _ hbs hbt
    have hfe : f = e := hbs.2 f hbt.1
    rw [hfe]
    omega
  | tail n s1 t1 u hpath hadj ih =>
    intro e f hwf hbs hbu
    have hwft : WFState w h t1 := ReachN_wf w h n s1 t1 hwf hpath
    obtain ⟨hlent, g, hbg⟩ := hwft
    obtain ⟨j, hgrid, hu, hbj⟩ := StateAdj_char w h t1 u g hlent hbg hadj
    have hfj : f = j := hbj.2 f hbu.1
    subst hfj
    have hih := ih e g hwf hbs hbg
    have hpar := grid_adjacent_parity w h g f hgrid
    omega

theorem adj_dist_ne (w h : Nat) (s0 x y : List Nat) (hwf : WFState w h s0)
    (hrx : ∃ n, ReachN w h n s0 x) (hry : ∃ n, ReachN w h n s0 y)
    (hadj : StateAdj w h x y) :
    state_dist w h s0 x ≠ state_dist w h s0 y := by
  obtain ⟨hlen0, e0, hb0⟩ := hwf
  have hwf0 : WFState w h s0 := ⟨hlen0, e0, hb0⟩
  have hwfx : WFState w h x := ReachN_wf w h _ s0 x hwf0 (state_dist_spec w h s0 x hrx)
  have hwfy : WFState w h y := ReachN_wf w h _ s0 y hwf0 (state_dist_spec w h s0 y hry)
  obtain ⟨hlenx, ex, hbx⟩ := hwfx
  obtain ⟨hleny, ey, hby⟩ := hwfy
  have p1 := ReachN_blank_parity w h _ s0 x
    (state_dist_spec w h s0 x hrx) e0 ex hwf0 hb0 hbx
  have p2 := ReachN_blank_parity w h _ s0 y
    (state_dist_spec w h s0 y hry) e0 ey hwf0 hb0 hby
  obtain ⟨j, hgrid, hy, hbj⟩ := StateAdj_char w h x y ex hlenx hbx hadj
  have heyj : ey = j := hbj.2 ey hby.1
  subst heyj
  have hpar := grid_adjacent_parity w h ex ey hgrid
  intro heq
  omega

theorem adj_dist_cases (w h : Nat) (s0 x y : List Nat) (hwf : WFState w h s0)
    (hrx : ∃ n, ReachN w h n s0 x) (hadj : StateAdj w h x y) :
    state_dist w h s0 y = state_dist w h s0 x + 1 ∨
      state_dist w h s0 x = state_dist w h s0 y + 1 := by
  have hwfx : WFState w h x := ReachN_wf w h _ s0 x hwf (state_dist_spec w h s0 x hrx)
  have hry : ∃ n, ReachN w h n s0 y :=
    ⟨_, ReachN.tail _ s0 x y (state_dist_spec w h s0 x hrx) hadj⟩
  have h1 : state_dist w h s0 y ≤ state_dist w h s0 x + 1 :=
    state_dist_adj_le w h s0 x y hrx hadj
  have h2 : state_dist w h s0 x ≤ state_dist w h s0 y + 1 :=
    state_dist_adj_le w h s0 y x hry (StateAdj_symm w h x y hwfx hadj)
  have hne := adj_dist_ne w h s0 x y hwf hrx hry hadj
  omega

/-! ## Further visited-map lemmas for the breadth-first invariant -/

theorem pmap_contains_insert (m : ParentMap) (k x : StateKey) (v : ParentRec) :
    pmap_contains (pmap_insert m k v) x = true ↔
      x = k ∨ pmap_contains m x = true := by
  rw [pmap_contains, pmap_lookup_insert]
  by_cases hk : k = x
  · subst hk
    simp
  · rw [if_neg hk, pmap_contains]
    constructor
    · exact fun hx => Or.inr hx
    · rintro (hx | hx)
      · exact absurd hx.symm hk
      · exact hx

theorem pmap_insert_mem (m : ParentMap) (k : StateKey) (v : ParentRec) :
    ∀ p ∈ pmap_insert m k v, p = (k, v) ∨ p ∈ m := by
  induction m with
  | nil =>
    intro p hp
    rw [pmap_insert] at hp
    simp at hp
    exact Or.inl hp
  | cons hd rest ih =>
    obtain ⟨k0, v0⟩ := hd
    intro p hp
    by_cases h0 : k0 = k
    · rw [pmap_insert, if_pos h0] at hp
      rcases List.mem_cons.mp hp with hp1 | hp1
      · exact Or.inl hp1
      · exact Or.inr (List.mem_cons.mpr (Or.inr hp1))
    · rw [pmap_insert, if_neg h0] at hp
      rcases List.mem_cons.mp hp with hp1 | hp1
      · exact Or.inr (List.mem_cons.mpr (Or.inl hp1))
      · rcases ih p hp1 with hp2 | hp2
        · exact Or.inl hp2
        · exact Or.inr (List.mem_cons.mpr (Or.inr hp2))

theorem pmap_lookup_mem (m : ParentMap) (k : StateKey) (r : ParentRec)
    (h : pmap_lookup m k = some r) : (k, r) ∈ m := by
  induction m with
  | nil => exact absurd h (by rw [pmap_lookup]; simp)
  | cons hd rest ih =>
    obtain ⟨k0, v0⟩ := hd
    by_cases h0 : k0 = k
    · rw [pmap_lookup, if_pos h0] at h
      have hv : v0 = r := Option.some_inj.mp h
      exact List.mem_cons.mpr (Or.inl (by rw [h0, hv]))
    · rw [pmap_lookup, if_neg h0] at h
      exact List.mem_cons.mpr (Or.inr (ih h))

theorem pmap_contains_true_iff (m : ParentMap) (k : StateKey) :
    pmap_contains m k = true ↔ ∃ r, pmap_lookup m k = some r := by
  rw [pmap_contains]
  cases h : pmap_lookup m k with
  | none => simp
  | some r => simp

/-! ## Graph agreement between the solver expansion and `StateAdj` -/

theorem StateAdj_iff_swap (w h : Nat) (s x : List Nat) (e : Nat)
    (hw0 : 0 < w) (hh0 : 0 < h) (hlen : s.length = w * h)
    (hblank : BlankAt s e) :
    StateAdj w h s x ↔
      ∃ nb ∈ swappable_neighbours_core w h e, x = list_swap s e nb := by
  have he : e < w * h := by rw [← hlen]; exact blank_lt s e hblank
  constructor
  · intro hadj
    obtain ⟨j, hgrid, hx, _⟩ := StateAdj_char w h s x e hlen hblank hadj
    exact ⟨j, (swappable_core_mem w h e j hw0 hh0 he).mpr ⟨hgrid.2.1, hgrid.2.2⟩, hx⟩
  · rintro ⟨nb, hnb, hx⟩
    obtain ⟨hnblt, horth⟩ := (swappable_core_mem w h e nb hw0 hh0 he).mp hnb
    exact ⟨(e, nb), ⟨⟨he, hnblt, horth⟩, Or.inl hblank.1⟩, hx⟩

theorem step_children_mem (w h : Nat) (f : StateKey) (lsw : Nat × Nat)
    (m : ParentMap) (en : FrontierEntry) :
    en ∈ step_children w h f lsw m ↔
      ∃ nb ∈ swappable_neighbours_core w h lsw.2,
        en = ((list_swap f lsw.2 nb : StateKey),
          (some f : Option StateKey), (lsw.2, nb)) ∧
        pmap_contains m (list_swap f lsw.2 nb) = false := by
  rw [step_children]
  simp only [List.mem_filter, List.mem_map, decide_eq_true_eq, Bool.not_eq_true']
  constructor
  · rintro ⟨⟨nb, hnb, hen⟩, hcon⟩
    refine ⟨nb, hnb, hen.symm, ?_⟩
    rw [← hen] at hcon
    exact Bool.not_eq_true _ ▸ hcon
  · rintro ⟨nb, hnb, hen, hcon⟩
    refine ⟨⟨nb, hnb, hen.symm⟩, ?_⟩
    rw [hen]
    exact (Bool.not_eq_true _).symm ▸ hcon

/-! ## Predecessors along shortest paths -/

theorem dist_pred (w h : Nat) (s0 x : List Nat) (D : Nat)
    (hrx : ReachS w h s0 x) (hd : state_dist w h s0 x = D + 1) :
    ∃ y, ReachS w h s0 y ∧ state_dist w h s0 y = D ∧ StateAdj w h y x := by
  have hp := state_dist_spec w h s0 x hrx
  rw [hd] at hp
  cases hp with
  | tail n s t u hpath hadj =>
    refine ⟨t, ⟨D, hpath⟩, ?_, hadj⟩
    have h1 : state_dist w h s0 t ≤ D := state_dist_le w h s0 t D hpath
    have h2 : state_dist w h s0 x ≤ state_dist w h s0 t + 1 :=
      state_dist_adj_le w h s0 t x ⟨D, hpath⟩ hadj
    omega

theorem dist_level_nonempty (w h : Nat) (s0 : List Nat) (k : Nat) :
    ∀ D x, ReachS w h s0 x → state_dist w h s0 x = D → k ≤ D →
      ∃ y, ReachS w h s0 y ∧ state_dist w h s0 y = k := by
  intro D
  induction D with
  | zero =>
    intro x hr hd hk
    exact ⟨x, hr, by omega⟩
  | succ D ih =>
    intro x hr hd hk
    by_cases hke : k = D + 1
    · exact ⟨x, hr, by omega⟩
    · obtain ⟨y, hry, hdy, _⟩ := dist_pred w h s0 x D hr hd
      exact ih y hry hdy (by omega)

theorem ReachN_mem_subset (w h : Nat) :
    ∀ n s t, ReachN w h n s t → ∀ x ∈ t, x ∈ s := by
  intro n s t hr
  induction hr with
  | refl s => exact fun x hx => hx
  | tail n s t u hpath hadj ih =>
    obtain ⟨m, _, hu⟩ := hadj
    intro x hx
    rw [hu] at hx
    exact ih x (list_swap_mem_subset t m.1 m.2 x hx)

/-! ## Legal move sequences and graph paths -/

theorem LegalSeq_snoc (w h : Nat) :
    ∀ s mseq t, LegalSeq w h s mseq t → ∀ m, LegalSwap w h t m →
      LegalSeq w h s (mseq ++ [m]) (list_swap t m.1 m.2) := by
  intro s mseq t hseq
  induction hseq with
  | nil s =>
    intro m hm
    exact LegalSeq.cons s m [] _ hm (LegalSeq.nil _)
  | cons s m0 rest t hm0 hrest ih =>
    intro m hm
    exact LegalSeq.cons s m0 (rest ++ [m]) _ hm0 (ih m hm)

theorem LegalSeq_reachN (w h : Nat) :
    ∀ s mseq t, LegalSeq w h s mseq t → ReachN w h mseq.length s t := by
  intro s mseq t hseq
  induction hseq with
  | nil s => exact ReachN.refl s
  | cons s m rest t hm hrest ih =>
    have h1 : ReachN w h 1 s (list_swap s m.1 m.2) :=
      ReachN_single w h s _ ⟨m, hm, rfl⟩
    have h2 := ReachN_compose w h 1 rest.length s _ t h1 ih
    rw [List.length_cons]
    exact Nat.add_comm 1 rest.length ▸ h2

/-! ## The canonical solved state and board initialization -/

theorem initialize_fields_ok (n : Nat) (h1 : 1 ≤ n) (h255 : n ≤ 255) :
    initialize_fields n = .ok (List.range (n - 1) ++ [255]) := by
  rw [initialize_fields]
  have hm : min n 255 = n := Nat.min_eq_left h255
  rw [hm, if_neg (by omega)]

theorem canonical_length (w h : Nat) (hw : 0 < w) (hh : 0 < h) :
    (canonical_state w h).length = w * h := by
  rw [canonical_state]
  have : 1 ≤ w * h := Nat.one_le_iff_ne_zero.mpr (by positivity)
  simp only [List.length_append, List.length_range, List.length_singleton]
  omega

theorem canonical_blank (w h : Nat) (hw : 0 < w) (hh : 0 < h)
    (hcap : w * h ≤ 255) :
    BlankAt (canonical_state w h) (w * h - 1) := by
  have hpos : 1 ≤ w * h := Nat.one_le_iff_ne_zero.mpr (by positivity)
  constructor
  · rw [canonical_state]
    rw [List.get?_append_right (by simp)]
    simp
  · intro i hi
    rw [canonical_state] at hi
    by_cases hlt : i < w * h - 1
    · rw [List.get?_append (by simpa using hlt)] at hi
      rw [List.get?_range hlt] at hi
      have : i = 255 := Option.some_inj.mp hi
      omega
    · by_cases hge : i < w * h
      · omega
      · rw [List.get?_append_right (by simp; omega)] at hi
        rw [show (([255] : List Nat)).get? (i - (List.range (w * h - 1)).length)
            = none from List.get?_eq_none.mpr (by simp; omega)] at hi
        exact absurd hi (by simp)

theorem canonical_mem_lt (w h : Nat) (hcap : w * h ≤ 255) :
    ∀ x ∈ canonical_state w h, x < 256 := by
  intro x hx
  rw [canonical_state] at hx
  rcases List.mem_append.mp hx with hx1 | hx1
  · have := List.mem_range.mp hx1
    omega
  · rw [List.mem_singleton] at hx1
    omega

theorem findIdx_of_blank :
    ∀ (s : List Nat) (e : Nat), s.get? e = some 255 →
      (∀ i, i < e → s.get? i ≠ some 255) →
      s.findIdx? (· = 255) = some e := by
  intro s
  induction s with
  | nil =>
    intro e he _
    simp at he
  | cons x xs ih =>
    intro e he hfirst
    cases e with
    | zero =>
      rw [List.get?] at he
      have hx : x = 255 := Option.some_inj.mp he
      rw [List.findIdx?_cons, if_pos (by simp [hx])]
    | succ e' =>
      have hx : x ≠ 255 := by
        intro hx
        exact hfirst 0 (Nat.succ_pos e') (by rw [List.get?, hx])
      rw [List.findIdx?_cons, if_neg (by simp [hx])]
      rw [List.findIdx?_succ]
      rw [ih e' (by rw [List.get?] at he; exact he)
        (fun i hi hc => hfirst (i + 1) (by omega) (by rw [List.get?]; exact hc))]
      rfl

theorem get_empty_field_idx_blank (s : List Nat) (e : Nat) (hb : BlankAt s e) :
    get_empty_field_idx s = some e := by
  rw [get_empty_field_idx]
  apply findIdx_of_blank s e hb.1
  intro i hi hc
  exact absurd (hb.2 i hc) (by omega)

/-! ## The breadth-first invariant: exhaustion, re-levelling, expansion -/

theorem bfs_no_exhaust (w h : Nat) (s0 target : List Nat) (e0 d : Nat)
    (M : ParentMap) (htr : ReachS w h s0 target)
    (hinv : BfsInv w h s0 target e0 d [] [] M) : False := by
  rcases Nat.lt_or_ge (state_dist w h s0 target) (d + 1) with hD | hD
  · rcases Nat.lt_or_ge (state_dist w h s0 target) d with h1 | h1
    · exact absurd (hinv.cov_lt target htr h1) (by rw [hinv.target_not]; simp)
    · have hd : state_dist w h s0 target = d := by omega
      rcases hinv.cov_d target htr hd with hc | ⟨en, hen, _⟩
      · exact absurd hc (by rw [hinv.target_not]; simp)
      · exact absurd hen (List.not_mem_nil en)
  · obtain ⟨y, hry, hdy⟩ := dist_level_nonempty w h s0 (d + 1)
      (state_dist w h s0 target) target htr rfl hD
    rcases hinv.cov_d1 y hry hdy with ⟨en, hen, _⟩ | ⟨en, hen, _⟩
    · exact absurd hen (List.not_mem_nil en)
    · exact absurd hen (List.not_mem_nil en)

theorem bfs_relevel (w h : Nat) (s0 target : List Nat) (e0 d : Nat)
    (B : List FrontierEntry) (M : ParentMap)
    (hinv : BfsInv w h s0 target e0 d [] B M) :
    BfsInv w h s0 target e0 (d + 1) B [] M := by
  refine ⟨hinv.b_dist, fun en hen => absurd hen (List.not_mem_nil en),
    ?_, ?_, ?_, hinv.m_parents, ?_, ?_, ?_, hinv.target_not⟩
  · intro en hen
    simp only [List.append_nil] at hen
    exact hinv.q_wf en hen
  · intro en hen
    simp only [List.append_nil] at hen
    exact hinv.q_parents en hen
  · intro pr hpr
    exact ⟨(hinv.m_rec pr hpr).1, (hinv.m_rec pr hpr).2.1,
      le_trans (hinv.m_rec pr hpr).2.2 (Nat.le_succ d)⟩
  · intro x hr hlt
    rcases Nat.lt_or_ge (state_dist w h s0 x) d with h1 | h1
    · exact hinv.cov_lt x hr h1
    · have hd : state_dist w h s0 x = d := by omega
      rcases hinv.cov_d x hr hd with hc | ⟨en, hen, _⟩
      · exact hc
      · exact absurd hen (List.not_mem_nil en)
  · intro x hr hd
    rcases hinv.cov_d1 x hr hd with ⟨en, hen, hen1⟩ | ⟨en, hen, _⟩
    · exact Or.inr ⟨en, hen, hen1⟩
    · exact absurd hen (List.not_mem_nil en)
  · intro x hr hd
    obtain ⟨y, hry, hdy, hadj⟩ := dist_pred w h s0 x (d + 1) hr hd
    rcases hinv.cov_d1 y hry hdy with ⟨en, henB, hen1⟩ | ⟨en, hen, _⟩
    · exact Or.inr ⟨en, henB, by rw [hen1]; exact hadj⟩
    · exact absurd hen (List.not_mem_nil en)

/-- Popping the frontier head at the current level either finds the
target (and the final map is good) or expands it, preserving the
breadth-first invariant with the head's unvisited neighbours appended
at distance `d + 1`. -/
theorem bfs_pop (w h : Nat) (s0 target : List Nat) (e0 d : Nat)
    (hw0 : 0 < w) (hh0 : 0 < h) (hwf0 : WFState w h s0)
    (f : StateKey) (p : Option StateKey) (lsw : Nat × Nat)
    (A B : List FrontierEntry) (M : ParentMap)
    (hinv : BfsInv w h s0 target e0 d ((f, p, lsw) :: A) B M) :
    (f = target ∧
      solver_step target w h ⟨((f, p, lsw) :: A) ++ B, M⟩ =
        .finished (pmap_insert M f (p, lsw)) ∧
      GoodFinal w h s0 e0 target (pmap_insert M f (p, lsw))) ∨
    (f ≠ target ∧
      solver_step target w h ⟨((f, p, lsw) :: A) ++ B, M⟩ =
        .going ⟨A ++ (B ++ step_children w h f lsw (pmap_insert M f (p, lsw))),
          pmap_insert M f (p, lsw)⟩ ∧
      BfsInv w h s0 target e0 d A
        (B ++ step_children w h f lsw (pmap_insert M f (p, lsw)))
        (pmap_insert M f (p, lsw))) := by
  have hhd : ((f, p, lsw) : FrontierEntry) ∈ ((f, p, lsw) :: A) ++ B :=
    List.mem_append.mpr (Or.inl (List.mem_cons_self _ _))
  obtain ⟨hrf, hbf, hrec⟩ := hinv.q_wf _ hhd
  have hdf : state_dist w h s0 f = d :=
    hinv.a_dist _ (List.mem_cons_self _ _)
  have hwff : WFState w h f :=
    ReachN_wf w h _ s0 f hwf0 (state_dist_spec w h s0 f hrf)
  have hlenf : f.length = w * h := hwff.1
  have he : lsw.2 < w * h := by rw [← hlenf]; exact blank_lt f lsw.2 hbf
  have hstep := solver_step_cons target w h f p lsw (A ++ B) M
    (by omega) hlenf he
  have hmono : ∀ x, pmap_contains M x = true →
      pmap_contains (pmap_insert M f (p, lsw)) x = true :=
    fun x hx => (pmap_contains_insert M f x (p, lsw)).mpr (Or.inr hx)
  have hconf : pmap_contains (pmap_insert M f (p, lsw)) f = true :=
    (pmap_contains_insert M f f (p, lsw)).mpr (Or.inl rfl)
  by_cases hft : f = target
  · refine Or.inl ⟨hft, ?_, ?_⟩
    · rw [List.cons_append, hstep, if_pos hft]
    · unfold GoodFinal
      constructor
      · intro pr hpr
        rcases pmap_insert_mem M f (p, lsw) pr hpr with hpr1 | hpr1
        · subst hpr1
          exact ⟨hrf, hrec, fun pp hpp =>
            hmono pp (hinv.q_parents _ hhd pp hpp)⟩
        · obtain ⟨h1, h2, _⟩ := hinv.m_rec pr hpr1
          exact ⟨h1, h2, fun pp hpp =>
            hmono pp (hinv.m_parents pr hpr1 pp hpp)⟩
      · rw [← hft]
        exact hconf
  · have hchild : ∀ en ∈ step_children w h f lsw (pmap_insert M f (p, lsw)),
        StateAdj w h f en.1 ∧ BlankAt en.1 en.2.2.2 ∧
        ReachS w h s0 en.1 ∧ state_dist w h s0 en.1 = d + 1 ∧
        RecOK w h s0 e0 en.1 en.2 ∧ en.2.1 = some f := by
      intro en hen
      obtain ⟨nb, hnb, hen_eq, hcon⟩ :=
        (step_children_mem w h f lsw (pmap_insert M f (p, lsw)) en).mp hen
      obtain ⟨hnblt, horth⟩ :=
        (swappable_core_mem w h lsw.2 nb hw0 hh0 he).mp hnb
      have hadj : StateAdj w h f (list_swap f lsw.2 nb) :=
        ⟨(lsw.2, nb), ⟨⟨he, hnblt, horth⟩, Or.inl hbf.1⟩, rfl⟩
      have hnbne : nb ≠ lsw.2 :=
        (orth_adjacent_ne w lsw.2 nb hw0 horth).symm
      have hblankc : BlankAt (list_swap f lsw.2 nb) nb :=
        BlankAt_swap f lsw.2 nb hbf (by rw [hlenf]; exact hnblt) hnbne
      have hrc : ReachS w h s0 (list_swap f lsw.2 nb) :=
        ⟨_, ReachN.tail _ s0 f _ (state_dist_spec w h s0 f hrf) hadj⟩
      have hdc : state_dist w h s0 (list_swap f lsw.2 nb) = d + 1 := by
        rcases adj_dist_cases w h s0 f _ hwf0 hrf hadj with h1 | h1
        · rw [h1, hdf]
        · exfalso
          have hlt : state_dist w h s0 (list_swap f lsw.2 nb) < d := by omega
          have := hinv.cov_lt _ hrc hlt
          exact absurd (hmono _ this) (by rw [hcon]; simp)
      subst hen_eq
      refine ⟨hadj, hblankc, hrc, hdc, ?_, rfl⟩
      show EdgeRec w h f (lsw.2, nb) (list_swap f lsw.2 nb) ∧
        ReachS w h s0 f ∧
        state_dist w h s0 f + 1 = state_dist w h s0 (list_swap f lsw.2 nb)
      refine ⟨⟨⟨he, hnblt, horth⟩, hbf.1, rfl⟩, hrf, ?_⟩
      rw [hdc, hdf]
    refine Or.inr ⟨hft, ?_, ?_⟩
    · rw [List.cons_append, hstep, if_neg hft, List.append_assoc]
    · refine ⟨?_, ?_, ?_, ?_, ?_, ?_, ?_, ?_, ?_, ?_⟩
      · intro en hen
        exact hinv.a_dist en (List.mem_cons_of_mem _ hen)
      · intro en hen
        rcases List.mem_append.mp hen with h1 | h1
        · exact hinv.b_dist en h1
        · exact (hchild en h1).2.2.2.1
      · intro en hen
        rcases List.mem_append.mp hen with h1 | h1
        · exact hinv.q_wf en
            (List.mem_append.mpr (Or.inl (List.mem_cons_of_mem _ h1)))
        · rcases List.mem_append.mp h1 with h2 | h2
          · exact hinv.q_wf en (List.mem_append.mpr (Or.inr h2))
          · exact ⟨(hchild en h2).2.2.1, (hchild en h2).2.1,
              (hchild en h2).2.2.2.2.1⟩
      · intro en hen
        rcases List.mem_append.mp hen with h1 | h1
        · exact fun pp hpp => hmono pp (hinv.q_parents en
            (List.mem_append.mpr (Or.inl (List.mem_cons_of_mem _ h1))) pp hpp)
        · rcases List.mem_append.mp h1 with h2 | h2
          · exact fun pp hpp => hmono pp (hinv.q_parents en
              (List.mem_append.mpr (Or.inr h2)) pp hpp)
          · intro pp hpp
            have hsf := (hchild en h2).2.2.2.2.2
            rw [hsf] at hpp
            rw [← Option.some_inj.mp hpp]
            exact hconf
      · intro pr hpr
        rcases pmap_insert_mem M f (p, lsw) pr hpr with hpr1 | hpr1
        · subst hpr1
          exact ⟨hrf, hrec, le_of_eq hdf⟩
        · obtain ⟨h1, h2, h3⟩ := hinv.m_rec pr hpr1
          exact ⟨h1, h2, h3⟩
      · intro pr hpr
        rcases pmap_insert_mem M f (p, lsw) pr hpr with hpr1 | hpr1
        · subst hpr1
          exact fun pp hpp => hmono pp (hinv.q_parents _ hhd pp hpp)
        · exact fun pp hpp => hmono pp (hinv.m_parents pr hpr1 pp hpp)
      · exact fun x hr hlt => hmono x (hinv.cov_lt x hr hlt)
      · intro x hr hd
        rcases hinv.cov_d x hr hd with hc | ⟨en, hen, hen1⟩
        · exact Or.inl (hmono x hc)
        · rcases List.mem_cons.mp hen with h1 | h1
          · subst h1
            rw [← hen1]
            exact Or.inl hconf
          · exact Or.inr ⟨en, h1, hen1⟩
      · intro x hr hd
        rcases hinv.cov_d1 x hr hd with ⟨en, henB, hen1⟩ | ⟨en, hen, hadjx⟩
        · exact Or.inl ⟨en, List.mem_append.mpr (Or.inl henB), hen1⟩
        · rcases List.mem_cons.mp hen with h1 | h1
          · subst h1
            obtain ⟨nb, hnb, hx⟩ :=
              (StateAdj_iff_swap w h f x lsw.2 hw0 hh0 hlenf hbf).mp hadjx
            have hnotin : pmap_contains (pmap_insert M f (p, lsw)) x = false := by
              cases hc : pmap_contains (pmap_insert M f (p, lsw)) x with
              | false => rfl
              | true =>
                rcases (pmap_contains_insert M f x (p, lsw)).mp hc with h2 | h2
                · subst h2
                  omega
                · obtain ⟨r, hr2⟩ := (pmap_contains_true_iff M x).mp h2
                  have h3 : state_dist w h s0 x ≤ d :=
                    (hinv.m_rec (x, r) (pmap_lookup_mem M x r hr2)).2.2
                  omega
            refine Or.inl ⟨((list_swap f lsw.2 nb : StateKey),
              (some f : Option StateKey), (lsw.2, nb)),
              List.mem_append.mpr (Or.inr ?_), hx.symm⟩
            exact (step_children_mem w h f lsw (pmap_insert M f (p, lsw)) _).mpr
              ⟨nb, hnb, rfl, by rw [← hx]; exact hnotin⟩
          · exact Or.inr ⟨en, h1, hadjx⟩
      · cases hc : pmap_contains (pmap_insert M f (p, lsw)) target with
        | false => rfl
        | true =>
          rcases (pmap_contains_insert M f target (p, lsw)).mp hc with h1 | h1
          · exact absurd h1.symm hft
          · rw [hinv.target_not] at h1
            exact absurd h1 (by simp)

/-- Running the loop from any state satisfying the breadth-first
invariant: after any number of iterations the loop has either finished
with a good final map or is still going with the invariant intact. -/
theorem bfs_run (w h : Nat) (s0 target : List Nat) (e0 : Nat)
    (hw0 : 0 < w) (hh0 : 0 < h) (hwf0 : WFState w h s0)
    (htr : ReachS w h s0 target) :
    ∀ i d A B M, BfsInv w h s0 target e0 d A B M →
      (∃ m', solver_iterate target w h i ⟨A ++ B, M⟩ = .finished m' ∧
        GoodFinal w h s0 e0 target m') ∨
      (∃ d' A' B' M', solver_iterate target w h i ⟨A ++ B, M⟩ =
          .going ⟨A' ++ B', M'⟩ ∧ BfsInv w h s0 target e0 d' A' B' M') := by
  intro i
  induction i with
  | zero =>
    intro d A B M hinv
    exact Or.inr ⟨d, A, B, M, rfl, hinv⟩
  | succ i ih =>
    intro d A B M hinv
    have hpeel : ∀ st : SolverState, solver_iterate target w h (i + 1) st =
        (match solver_step target w h st with
          | .going st' => solver_iterate target w h i st'
          | other => other) := fun st => rfl
    cases A with
    | nil =>
      cases B with
      | nil =>
        exact absurd hinv (fun hx => bfs_no_exhaust w h s0 target e0 d M htr hx)
      | cons en B' =>
        have hinv2 := bfs_relevel w h s0 target e0 d (en :: B') M hinv
        obtain ⟨f, p, lsw⟩ := en
        have hq : (((f, p, lsw) : FrontierEntry) :: B') ++ ([] : List FrontierEntry)
            = ([] : List FrontierEntry) ++ ((f, p, lsw) :: B') := by simp
        rcases bfs_pop w h s0 target e0 (d + 1) hw0 hh0 hwf0 f p lsw B' [] M hinv2 with
          ⟨hft, hstep, hgood⟩ | ⟨hft, hstep, hinv3⟩
        · rw [hq] at hstep
          refine Or.inl ⟨pmap_insert M f (p, lsw), ?_, hgood⟩
          rw [hpeel, hstep]
        · rw [hq] at hstep
          have hrun := ih (d + 1) B'
            ([] ++ step_children w h f lsw (pmap_insert M f (p, lsw)))
            (pmap_insert M f (p, lsw)) hinv3
          rw [hpeel, hstep]
          exact hrun
    | cons en A' =>
      obtain ⟨f, p, lsw⟩ := en
      rcases bfs_pop w h s0 target e0 d hw0 hh0 hwf0 f p lsw A' B M hinv with
        ⟨hft, hstep, hgood⟩ | ⟨hft, hstep, hinv3⟩
      · refine Or.inl ⟨pmap_insert M f (p, lsw), ?_, hgood⟩
        rw [hpeel, hstep]
      · have hrun := ih d A'
          (B ++ step_children w h f lsw (pmap_insert M f (p, lsw)))
          (pmap_insert M f (p, lsw)) hinv3
        rw [hpeel, hstep]
        exact hrun

/-- A solvable search terminates with a good final map: the visited map
contains the target together with a chain of valid parent records. -/
theorem bfs_main (w h : Nat) (s0 target : List Nat) (e0 : Nat)
    (hw0 : 0 < w) (hh0 : 0 < h)
    (hwf0 : WFState w h s0) (hlen0 : s0.length = w * h)
    (hbytes : ∀ x ∈ s0, x < 256) (hb0 : BlankAt s0 e0)
    (htr : ReachS w h s0 target) :
    ∃ i M, solver_iterate target w h i ⟨[(s0, none, (e0, e0))], []⟩ =
        .finished M ∧ GoodFinal w h s0 e0 target M := by
  have he0 : e0 < w * h := by rw [← hlen0]; exact blank_lt s0 e0 hb0
  have hinv0 : BfsInv w h s0 target e0 0 [(s0, none, (e0, e0))] [] [] := by
    refine ⟨?_, ?_, ?_, ?_, ?_, ?_, ?_, ?_, ?_, rfl⟩
    · intro en hen
      rw [List.mem_singleton] at hen
      subst hen
      exact state_dist_self w h s0
    · exact fun en hen => absurd hen (List.not_mem_nil en)
    · intro en hen
      simp only [List.append_nil, List.mem_singleton] at hen
      subst hen
      exact ⟨⟨0, ReachN.refl s0⟩, hb0, ⟨rfl, rfl⟩⟩
    · intro en hen
      simp only [List.append_nil, List.mem_singleton] at hen
      subst hen
      intro pp hpp
      exact absurd hpp (by simp)
    · exact fun pr hpr => absurd hpr (List.not_mem_nil pr)
    · exact fun pr hpr => absurd hpr (List.not_mem_nil pr)
    · intro x hr hlt
      omega
    · intro x hr hd
      exact Or.inr ⟨(s0, none, (e0, e0)), List.mem_singleton.mpr rfl,
        state_dist_eq_zero w h s0 x hr hd⟩
    · intro x hr hd
      obtain ⟨y, hry, hdy, hadj⟩ := dist_pred w h s0 x 0 hr hd
      have hy : s0 = y := state_dist_eq_zero w h s0 y hry hdy
      refine Or.inr ⟨(s0, none, (e0, e0)), List.mem_singleton.mpr rfl, ?_⟩
      show StateAdj w h s0 x
      rw [hy]
      exact hadj
  have hsinv : SolverInv w h ⟨[(s0, none, (e0, e0))], []⟩ := by
    refine ⟨?_, ?_, ?_⟩
    · intro en hen
      rw [List.mem_singleton] at hen
      subst hen
      exact ⟨⟨hlen0, hbytes⟩, he0⟩
    · exact fun pr hpr => absurd hpr (List.not_mem_nil pr)
    · exact List.nodup_nil
  obtain ⟨i, m, hfin⟩ := solver_loop_terminates target w h
    ⟨[(s0, none, (e0, e0))], []⟩ (by omega) hsinv
  rcases bfs_run w h s0 target e0 hw0 hh0 hwf0 htr i 0
      [(s0, none, (e0, e0))] [] [] hinv0 with
    ⟨m', hm', hgood⟩ | ⟨d', A', B', M', hgo, _⟩
  · exact ⟨i, m', hm', hgood⟩
  · exact absurd (hfin.symm.trans hgo) (by simp)

theorem trace_loop_lookup (M : ParentMap) (s0 k : StateKey) (fuel : Nat)
    (acc : List (Nat × Nat)) (pk : Option StateKey) (mv : Nat × Nat)
    (hr : pmap_lookup M k = some (pk, mv)) :
    trace_loop M s0 (fuel + 1) (some k) acc =
      if pk = some s0 then some (acc ++ [mv])
      else trace_loop M s0 fuel pk (acc ++ [mv]) := by
  rw [trace_loop]
  rw [show ((some k).bind (pmap_lookup M)) = pmap_lookup M k from rfl, hr]

/-- Path extraction from a good visited map: starting at a recorded key
at distance `n + 1` from the root, the trace loop terminates within the
distance's worth of fuel and accumulates (in reverse) a legal move
sequence of exactly that length from the root to the key. -/
theorem trace_loop_ok (w h : Nat) (s0 : List Nat) (e0 : Nat) (M : ParentMap)
    (hgood : ∀ pr ∈ M, ReachS w h s0 pr.1 ∧ RecOK w h s0 e0 pr.1 pr.2 ∧
      (∀ p, pr.2.1 = some p → pmap_contains M p = true)) :
    ∀ n k, pmap_contains M k = true → state_dist w h s0 k = n + 1 →
      ∀ fuel acc, n + 1 ≤ fuel →
        ∃ ms, trace_loop M s0 fuel (some k) acc = some (acc ++ ms) ∧
          ms.length = n + 1 ∧ LegalSeq w h s0 ms.reverse k := by
  intro n
  induction n with
  | zero =>
    intro k hck hdk fuel acc hfuel
    obtain ⟨r, hr⟩ := (pmap_contains_true_iff M k).mp hck
    obtain ⟨hrk, hrec, hpar⟩ := hgood (k, r) (pmap_lookup_mem M k r hr)
    obtain ⟨rp, mv⟩ := r
    cases rp with
    | none =>
      have hk : k = s0 ∧ mv = (e0, e0) := hrec
      exfalso
      rw [hk.1, state_dist_self] at hdk
      exact absurd hdk (by omega)
    | some p =>
      have hrec' : EdgeRec w h p mv k ∧ ReachS w h s0 p ∧
          state_dist w h s0 p + 1 = state_dist w h s0 k := hrec
      obtain ⟨hedge, hrp, hdp⟩ := hrec'
      have hdp0 : state_dist w h s0 p = 0 := by omega
      have hps : s0 = p := state_dist_eq_zero w h s0 p hrp hdp0
      cases fuel with
      | zero => omega
      | succ fuel' =>
        rw [trace_loop_lookup M s0 k fuel' acc (some p) mv hr,
          if_pos (by rw [← hps])]
        refine ⟨[mv], rfl, rfl, ?_⟩
        rw [List.reverse_singleton, hps]
        refine LegalSeq.cons p mv [] k ⟨hedge.1, Or.inl hedge.2.1⟩ ?_
        rw [← hedge.2.2]
        exact LegalSeq.nil k
  | succ n ih =>
    intro k hck hdk fuel acc hfuel
    obtain ⟨r, hr⟩ := (pmap_contains_true_iff M k).mp hck
    obtain ⟨hrk, hrec, hpar⟩ := hgood (k, r) (pmap_lookup_mem M k r hr)
    obtain ⟨rp, mv⟩ := r
    cases rp with
    | none =>
      have hk : k = s0 ∧ mv = (e0, e0) := hrec
      exfalso
      rw [hk.1, state_dist_self] at hdk
      exact absurd hdk (by omega)
    | some p =>
      have hrec' : EdgeRec w h p mv k ∧ ReachS w h s0 p ∧
          state_dist w h s0 p + 1 = state_dist w h s0 k := hrec
      obtain ⟨hedge, hrp, hdp⟩ := hrec'
      have hdpn : state_dist w h s0 p = n + 1 := by omega
      have hpne : (some p : Option StateKey) ≠ some s0 := by
        intro hx
        have hx2 : p = s0 := Option.some_inj.mp hx
        rw [hx2, state_dist_self] at hdpn
        exact absurd hdpn (by omega)
      cases fuel with
      | zero => omega
      | succ fuel' =>
        have hcp : pmap_contains M p = true := hpar p rfl
        obtain ⟨ms', hms', hlen', hseq'⟩ :=
          ih p hcp hdpn fuel' (acc ++ [mv]) (by omega)
        rw [trace_loop_lookup M s0 k fuel' acc (some p) mv hr, if_neg hpne]
        refine ⟨mv :: ms', ?_, ?_, ?_⟩
        · rw [hms', List.append_assoc, List.singleton_append]
        · rw [List.length_cons, hlen']
        · rw [List.reverse_cons]
          have hsn := LegalSeq_snoc w h s0 ms'.reverse p hseq' mv
            ⟨hedge.1, Or.inl hedge.2.1⟩
          rw [← hedge.2.2] at hsn
          exact hsn

theorem find_swap_order_unfold (fuel : Nat) (fields target : List Nat)
    (width height : Nat)
    (hinit : initialize_fields fields.length = .ok target) :
    find_swap_order fuel fields width height =
      if fields = target then some (.ok [])
      else
        match get_empty_field_idx fields with
        | none => some .panicked
        | some emptyFieldIdx =>
          match run_solver_loop target width height fuel
              ⟨[(fields, none, (emptyFieldIdx, emptyFieldIdx))], []⟩ with
          | none => none
          | some none => some .panicked
          | some (some m) =>
            if pmap_contains m target then
              match trace_loop m fields fuel (some target) [] with
              | none => none
              | some swaps => some (.ok swaps.reverse)
            else some (.ok []) := by
  rw [find_swap_order, hinit]

/-- C1 (amended): restricted to boards whose cell count does not exceed
the 255-element capacity to which `initialize_fields` clamps, the claim
holds — for every `width, height ≥ 1` with `width * height ≤ 255` and
every state reachable from the canonical solved state by legal swaps,
`find_swap_order` returns (for sufficient fuel, and deterministically by
`FindSwapOrder_det`) `Ok` of an ordered list of swap moves that is a
legal sequence transforming the state into the canonical solved state,
of the minimum possible length among all such sequences. -/
theorem C1_amended_solver_optimal_within_capacity (width height : Nat)
    (s : List Nat) (hw : 0 < width) (hh : 0 < height)
    (hcap : width * height ≤ 255)
    (hreach : ReachableState width height s) :
    ∃ L, FindSwapOrder s width height (.ok L) ∧
      LegalSeq width height s L (canonical_state width height) ∧
      ∀ L', LegalSeq width height s L' (canonical_state width height) →
        L.length ≤ L'.length := by
  have hpos : 1 ≤ width * height := Nat.one_le_iff_ne_zero.mpr (by positivity)
  have hlenT : (canonical_state width height).length = width * height :=
    canonical_length width height hw hh
  have hbT : BlankAt (canonical_state width height) (width * height - 1) :=
    canonical_blank width height hw hh hcap
  have hwfT : WFState width height (canonical_state width height) :=
    ⟨hlenT, _, hbT⟩
  obtain ⟨nR, hR⟩ :=
    (ReflTransGen_iff_ReachN width height (canonical_state width height) s).mp hreach
  have hwfs : WFState width height s :=
    ReachN_wf width height nR (canonical_state width height) s hwfT hR
  have hlens : s.length = width * height := hwfs.1
  have hbytes : ∀ x ∈ s, x < 256 := fun x hx =>
    canonical_mem_lt width height hcap x
      (ReachN_mem_subset width height nR (canonical_state width height) s hR x hx)
  have htr : ReachS width height s (canonical_state width height) :=
    ⟨nR, ReachN_symm width height nR (canonical_state width height) s hwfT hR⟩
  have hinit : initialize_fields s.length = .ok (canonical_state width height) := by
    rw [hlens, initialize_fields_ok (width * height) hpos hcap, canonical_state]
  by_cases hs : s = canonical_state width height
  · refine ⟨[], ⟨1, ?_⟩, ?_, fun L' _ => Nat.zero_le _⟩
    · rw [find_swap_order_unfold 1 s (canonical_state width height)
        width height hinit, if_pos hs]
    · rw [hs]
      exact LegalSeq.nil _
  · obtain ⟨es, hbs⟩ := hwfs.2
    have hgea := get_empty_field_idx_blank s es hbs
    obtain ⟨i, M, hfin, hgood⟩ := bfs_main width height s
      (canonical_state width height) es hw hh hwfs hlens hbytes hbs htr
    have hrun : run_solver_loop (canonical_state width height) width height
        (i + 1) ⟨[(s, none, (es, es))], []⟩ = some (some M) :=
      iterate_finished_run (canonical_state width height) width height i _ M hfin
    have hdT : state_dist width height s (canonical_state width height) ≠ 0 :=
      fun h0 => hs (state_dist_eq_zero width height s _ htr h0)
    obtain ⟨n, hdn⟩ : ∃ n, state_dist width height s
        (canonical_state width height) = n + 1 :=
      ⟨state_dist width height s (canonical_state width height) - 1, by omega⟩
    obtain ⟨ms, htrace, hmslen, hseq⟩ := trace_loop_ok width height s es M
      hgood.1 n (canonical_state width height) hgood.2 hdn (n + 1) []
      (le_refl _)
    have hrunF : run_solver_loop (canonical_state width height) width height
        (max (i + 1) (n + 1)) ⟨[(s, none, (es, es))], []⟩ = some (some M) :=
      run_solver_loop_mono_le (canonical_state width height) width height
        (i + 1) (max (i + 1) (n + 1)) _ _ (le_max_left _ _) hrun
    have htraceF : trace_loop M s (max (i + 1) (n + 1))
        (some (canonical_state width height)) [] = some ([] ++ ms) :=
      trace_loop_mono_le M s (n + 1) (max (i + 1) (n + 1)) _ [] ([] ++ ms)
        (le_max_right _ _) htrace
    refine ⟨ms.reverse, ⟨max (i + 1) (n + 1), ?_⟩, hseq, ?_⟩
    · rw [find_swap_order_unfold (max (i + 1) (n + 1)) s
        (canonical_state width height) width height hinit, if_neg hs, hgea]
      show (match run_solver_loop (canonical_state width height) width height
          (max (i + 1) (n + 1)) ⟨[(s, none, (es, es))], []⟩ with
        | none => none
        | some none => some RsOutcome.panicked
        | some (some m) =>
          if pmap_contains m (canonical_state width height) then
            match trace_loop m s (max (i + 1) (n + 1))
                (some (canonical_state width height)) [] with
            | none => none
            | some swaps => some (RsOutcome.ok swaps.reverse)
          else some (RsOutcome.ok [])) = some (RsOutcome.ok ms.reverse)
      rw [hrunF]
      show (if pmap_contains M (canonical_state width height) then
          match trace_loop M s (max (i + 1) (n + 1))
              (some (canonical_state width height)) [] with
          | none => none
          | some swaps => some (RsOutcome.ok swaps.reverse)
        else some (RsOutcome.ok [])) = some (RsOutcome.ok ms.reverse)
      rw [if_pos hgood.2, htraceF]
      rfl
    · intro L' hL'
      have h1 : ReachN width height L'.length s (canonical_state width height) :=
        LegalSeq_reachN width height s L' (canonical_state width height) hL'
      have h2 := state_dist_le width height s (canonical_state width height)
        L'.length h1
      rw [List.length_reverse, hmslen]
      omega

/-- Witness for the amended C1 theorem at the concrete reachable `2 × 2`
state `[0, 1, 255, 2]`, one legal swap away from the solved board. -/
theorem C1_amended_solver_optimal_within_capacity_witness :
    0 < 2 ∧ 2 * 2 ≤ 255 ∧ ReachableState 2 2 [0, 1, 255, 2] ∧
    ∃ L, FindSwapOrder [0, 1, 255, 2] 2 2 (.ok L) ∧
      LegalSeq 2 2 [0, 1, 255, 2] L (canonical_state 2 2) ∧
      ∀ L', LegalSeq 2 2 [0, 1, 255, 2] L' (canonical_state 2 2) →
        L.length ≤ L'.length := by
  have hr : ReachableState 2 2 [0, 1, 255, 2] :=
    Relation.ReflTransGen.single
      ⟨(3, 2), ⟨by decide, Or.inl (by decide)⟩, by decide⟩
  exact ⟨by decide, by decide, hr,
    C1_amended_solver_optimal_within_capacity 2 2 [0, 1, 255, 2]
      (by decide) (by decide) (by decide) hr⟩
